import Mathlib

/-!
# Verification of the DFS-BFS map-generation project

Shallow embedding of the Python sources (`map.py`, `ai_director.py`,
`dungeon_generator.py`, `cavern_generator.py`) and proofs of the spec's
claims about them.

Conventions:
* cells are `Char` as in the source (`'#'` wall, `'.'` floor);
* coordinates are `Int` (Python integers), widths/heights are `Nat`
  (the constructors are only ever called with non-negative sizes);
* Python's `random` calls are modelled by injected choice streams
  (`Nat → Nat` index pickers / `Nat → Rat` uniform draws), quantified
  over in the theorems;
* loops over queues/stacks are modelled with explicit fuel returning
  `Option`; sufficiency of the initial fuel is proved, so the fuelled
  function and the Python loop agree.
-/

namespace DfsBfs

/-- Embedding of `map.py`, class `Map`: a 2-D grid of characters. -/
structure Map where
  width : Nat
  height : Nat
  grid : List (List Char)
deriving Repr, DecidableEq

/-- `Map.__init__`: a map filled with walls (`'#'`). -/
def Map.init (width height : Nat) : Map :=
  ⟨width, height, List.replicate height (List.replicate width '#')⟩

/-- The bounds test shared by `set_cell`/`get_cell`
(`0 <= y < self.height and 0 <= x < self.width`). -/
def Map.inRange (m : Map) (x y : Int) : Prop :=
  0 ≤ y ∧ y < (m.height : Int) ∧ 0 ≤ x ∧ x < (m.width : Int)

instance (m : Map) (x y : Int) : Decidable (m.inRange x y) := by
  unfold Map.inRange; infer_instance

/-- `Map.set_cell`: write a character, no-op when out of bounds. -/
def Map.set_cell (m : Map) (x y : Int) (char : Char) : Map :=
  if m.inRange x y then
    { m with grid := m.grid.set y.toNat ((m.grid.getD y.toNat []).set x.toNat char) }
  else m

/-- `Map.get_cell`: read a character, `'#'` when out of bounds. -/
def Map.get_cell (m : Map) (x y : Int) : Char :=
  if m.inRange x y then (m.grid.getD y.toNat []).getD x.toNat '#'
  else '#'

/-- `Map.is_floor`. -/
def Map.is_floor (m : Map) (x y : Int) : Bool :=
  m.get_cell x y == '.'

/-- `Map.is_wall`. -/
def Map.is_wall (m : Map) (x y : Int) : Bool :=
  m.get_cell x y == '#'

/-- `Map.in_bounds`. -/
def Map.in_bounds (m : Map) (x y : Int) : Bool :=
  decide (0 ≤ x ∧ x < (m.width : Int) ∧ 0 ≤ y ∧ y < (m.height : Int))

/-- `Map.get_all_floor_tiles`: row-major list of floor coordinates. -/
def Map.get_all_floor_tiles (m : Map) : List (Int × Int) :=
  (List.range m.height).flatMap (fun (y : Nat) =>
    (List.range m.width).filterMap (fun (x : Nat) =>
      if m.is_floor (x : Int) (y : Int) then some ((x : Int), (y : Int)) else none))

/-- Offsets `(dx, dy)` enumerated by `count_wall_neighbors`
(`dy` outer from `-radius`, `dx` inner), centre excluded. -/
def neighborOffsets (radius : Nat) : List (Int × Int) :=
  (List.range (2 * radius + 1)).flatMap (fun (i : Nat) =>
    (List.range (2 * radius + 1)).filterMap (fun (j : Nat) =>
      let dx : Int := (j : Int) - (radius : Int)
      let dy : Int := (i : Int) - (radius : Int)
      if dx = 0 ∧ dy = 0 then none else some (dx, dy)))

/-- `Map.count_wall_neighbors`: walls (out-of-bounds counting as wall) in the
square neighbourhood of side `2*radius+1`, centre excluded. -/
def Map.count_wall_neighbors (m : Map) (x y : Int) (radius : Nat := 1) : Nat :=
  (neighborOffsets radius).countP (fun d =>
    !(m.in_bounds (x + d.1) (y + d.2)) || m.is_wall (x + d.1) (y + d.2))

/-! ## C5: out-of-bounds access -/

/-- **C5.** Out of bounds (`x < 0 ∨ x ≥ w ∨ y < 0 ∨ y ≥ h`): `get_cell`
returns the wall sentinel `'#'`, `set_cell` leaves the map unchanged,
`is_floor` is `false` and `is_wall` is `true`. -/
theorem out_of_bounds_access (m : Map) (x y : Int) (c : Char)
    (h : x < 0 ∨ (m.width : Int) ≤ x ∨ y < 0 ∨ (m.height : Int) ≤ y) :
    m.get_cell x y = '#' ∧ m.set_cell x y c = m ∧
    m.is_floor x y = false ∧ m.is_wall x y = true := by
  have hnr : ¬ m.inRange x y := by
    unfold Map.inRange
    rcases h with h | h | h | h <;> intro ⟨h1, h2, h3, h4⟩ <;> omega
  refine ⟨?_, ?_, ?_, ?_⟩
  · simp [Map.get_cell, hnr]
  · simp [Map.set_cell, hnr]
  · simp [Map.is_floor, Map.get_cell, hnr]
  · simp [Map.is_wall, Map.get_cell, hnr]

/-- Witness for C5 at a concrete out-of-bounds input. -/
theorem out_of_bounds_access_witness :
    (Map.init 3 3).get_cell 5 1 = '#' ∧ (Map.init 3 3).set_cell 5 1 '.' = Map.init 3 3 ∧
    (Map.init 3 3).is_floor 5 1 = false ∧ (Map.init 3 3).is_wall 5 1 = true :=
  out_of_bounds_access (Map.init 3 3) 5 1 '.' (by right; left; decide)

/-! ## 4-directional adjacency and floor reachability -/

/-- The direction list `[(0,1),(0,-1),(1,0),(-1,0)]` used by every BFS/
neighbour loop in `ai_director.py` and `cavern_generator.py`. -/
def directions : List (Int × Int) := [(0, 1), (0, -1), (1, 0), (-1, 0)]

/-- 4-directional adjacency: `q` is obtained from `p` by one of the four
unit offsets. -/
def Adj (p q : Int × Int) : Prop :=
  ∃ d ∈ directions, q = (p.1 + d.1, p.2 + d.2)

theorem Adj.symm {p q : Int × Int} (h : Adj p q) : Adj q p := by
  obtain ⟨d, hd, rfl⟩ := h
  refine ⟨(-d.1, -d.2), ?_, ?_⟩
  · simp only [directions, List.mem_cons, List.not_mem_nil, or_false] at hd ⊢
    rcases hd with rfl | rfl | rfl | rfl <;> simp
  · simp

/-- `Reach m p q n`: starting at `p` there is a walk of `n` unit steps ending
at `q` in which every cell after the first is a floor cell of `m` (the BFS
never tests the start cell). -/
inductive Reach (m : Map) : Int × Int → Int × Int → Nat → Prop
  | refl (p : Int × Int) : Reach m p p 0
  | step {p q r : Int × Int} {n : Nat} :
      Reach m p q n → Adj q r → m.is_floor r.1 r.2 = true → Reach m p r (n + 1)

theorem Reach.trans {m : Map} {p q r : Int × Int} {a b : Nat}
    (h1 : Reach m p q a) (h2 : Reach m q r b) : Reach m p r (a + b) := by
  induction h2 with
  | refl => exact h1
  | step h hadj hfl ih => exact Reach.step ih hadj hfl

/-- The endpoint of a non-trivial walk, or any endpoint equal to the start,
is constrained: either `q = p` or `q` is floor. -/
theorem Reach.eq_or_floor {m : Map} {p q : Int × Int} {n : Nat}
    (h : Reach m p q n) : q = p ∨ m.is_floor q.1 q.2 = true := by
  induction h with
  | refl => left; rfl
  | step h hadj hfl _ => right; exact hfl

/-- Reversal: a floor-to-floor walk can be walked backwards when the start
cell is itself floor. -/
theorem Reach.reverse {m : Map} {p q : Int × Int} {n : Nat}
    (hp : m.is_floor p.1 p.2 = true) (h : Reach m p q n) : Reach m q p n := by
  induction h with
  | refl => exact Reach.refl _
  | step h hadj hfl ih =>
    rename_i q' r' n'
    have hq : m.is_floor q'.1 q'.2 = true := by
      rcases h.eq_or_floor with rfl | hf
      · exact hp
      · exact hf
    have h1 : Reach m r' q' 1 := Reach.step (Reach.refl _) hadj.symm hq
    have := h1.trans ih
    simpa [Nat.add_comm] using this

/-- Carving more floor never destroys a walk. -/
theorem Reach.mono {m m' : Map} {p q : Int × Int} {n : Nat}
    (hsub : ∀ x y, m.is_floor x y = true → m'.is_floor x y = true)
    (h : Reach m p q n) : Reach m' p q n := by
  induction h with
  | refl => exact Reach.refl _
  | step h hadj hfl ih => exact Reach.step ih hadj (hsub _ _ hfl)

/-- `SDist m s c n`: `n` is the length of a shortest floor walk from `s`
to `c`. -/
def SDist (m : Map) (s c : Int × Int) (n : Nat) : Prop :=
  Reach m s c n ∧ ∀ k, Reach m s c k → n ≤ k

theorem SDist.unique {m : Map} {s c : Int × Int} {a b : Nat}
    (ha : SDist m s c a) (hb : SDist m s c b) : a = b :=
  Nat.le_antisymm (ha.2 _ hb.1) (hb.2 _ ha.1)

theorem exists_sdist {m : Map} {s c : Int × Int} {n : Nat}
    (h : Reach m s c n) : ∃ k, SDist m s c k ∧ k ≤ n := by
  classical
  have hex : ∃ k, Reach m s c k := ⟨n, h⟩
  exact ⟨Nat.find hex, ⟨Nat.find_spec hex, fun k hk => Nat.find_min' hex hk⟩,
    Nat.find_min' hex h⟩

theorem Map.is_floor_in_bounds {m : Map} {x y : Int}
    (h : m.is_floor x y = true) : m.in_bounds x y = true := by
  by_contra hb
  have : ¬ m.inRange x y := by
    intro ⟨h1, h2, h3, h4⟩
    simp [Map.in_bounds] at hb
    omega
  simp [Map.is_floor, Map.get_cell, this] at h

/-! ## BFS of `AIDirector.calculate_shortest_path` -/

/-- One direction of the neighbour scan inside the BFS `while` loop of
`calculate_shortest_path`: enqueue in-bounds unvisited floor neighbours,
marking them visited. -/
def bfsStep (m : Map) (x y : Int) (dist : Nat)
    (acc : List ((Int × Int) × Nat) × List (Int × Int)) (d : Int × Int) :
    List ((Int × Int) × Nat) × List (Int × Int) :=
  let nx := x + d.1
  let ny := y + d.2
  if m.in_bounds nx ny = true ∧ m.is_floor nx ny = true ∧ (nx, ny) ∉ acc.2 then
    (acc.1 ++ [((nx, ny), dist + 1)], acc.2 ++ [(nx, ny)])
  else acc

/-- The full `for dx, dy in directions` scan for one dequeued cell. -/
def bfsExpand (m : Map) (x y : Int) (dist : Nat)
    (qv : List ((Int × Int) × Nat) × List (Int × Int)) :
    List ((Int × Int) × Nat) × List (Int × Int) :=
  directions.foldl (bfsStep m x y dist) qv

theorem bfsStep_foldl_spec (m : Map) (x y : Int) (dist : Nat) :
    ∀ (ds : List (Int × Int)) (q : List ((Int × Int) × Nat)) (v : List (Int × Int)),
    ∃ new : List (Int × Int),
      (ds.foldl (bfsStep m x y dist) (q, v)).1 = q ++ new.map (fun c => (c, dist + 1)) ∧
      (ds.foldl (bfsStep m x y dist) (q, v)).2 = v ++ new ∧
      new.Nodup ∧
      (∀ c ∈ new, (∃ d ∈ ds, c = (x + d.1, y + d.2)) ∧
        m.is_floor c.1 c.2 = true ∧ c ∉ v) ∧
      (∀ d ∈ ds, m.is_floor (x + d.1) (y + d.2) = true →
        (x + d.1, y + d.2) ∈ v ∨ (x + d.1, y + d.2) ∈ new) := by
  intro ds
  induction ds with
  | nil => intro q v; exact ⟨[], by simp⟩
  | cons d ds ih =>
    intro q v
    by_cases hc : m.in_bounds (x + d.1) (y + d.2) = true ∧
        m.is_floor (x + d.1) (y + d.2) = true ∧ (x + d.1, y + d.2) ∉ v
    · obtain ⟨new, h1, h2, h3, h4, h5⟩ :=
        ih (q ++ [((x + d.1, y + d.2), dist + 1)]) (v ++ [(x + d.1, y + d.2)])
      have hstep : bfsStep m x y dist (q, v) d =
          (q ++ [((x + d.1, y + d.2), dist + 1)], v ++ [(x + d.1, y + d.2)]) := by
        simp [bfsStep, hc]
      refine ⟨(x + d.1, y + d.2) :: new, ?_, ?_, ?_, ?_, ?_⟩
      · simp only [List.foldl_cons, hstep, h1, List.map_cons, List.append_assoc,
          List.singleton_append]
      · simp only [List.foldl_cons, hstep, h2, List.append_assoc, List.singleton_append]
      · refine List.nodup_cons.2 ⟨?_, h3⟩
        intro hmem
        have := (h4 _ hmem).2.2
        simp at this
      · intro c hmem
        rcases List.mem_cons.1 hmem with rfl | hmem'
        · exact ⟨⟨d, List.mem_cons_self _ _, rfl⟩, hc.2.1, hc.2.2⟩
        · obtain ⟨⟨d', hd', hcd⟩, hfl, hnv⟩ := h4 _ hmem'
          refine ⟨⟨d', List.mem_cons_of_mem _ hd', hcd⟩, hfl, ?_⟩
          intro hcv
          exact hnv (List.mem_append_left _ hcv)
      · intro d' hd' hfl
        rcases List.mem_cons.1 hd' with rfl | hd''
        · right; exact List.mem_cons_self _ _
        · rcases h5 d' hd'' hfl with hv | hnew
          · rcases List.mem_append.1 hv with hv' | hv'
            · left; exact hv'
            · right
              simp only [List.mem_singleton] at hv'
              exact hv' ▸ List.mem_cons_self _ _
          · right; exact List.mem_cons_of_mem _ hnew
    · obtain ⟨new, h1, h2, h3, h4, h5⟩ := ih q v
      have hstep : bfsStep m x y dist (q, v) d = (q, v) := by
        simp only [bfsStep]
        rw [if_neg hc]
      refine ⟨new, ?_, ?_, h3, ?_, ?_⟩
      · simpa only [List.foldl_cons, hstep] using h1
      · simpa only [List.foldl_cons, hstep] using h2
      · intro c hmem
        obtain ⟨⟨d', hd', hcd⟩, hfl, hnv⟩ := h4 _ hmem
        exact ⟨⟨d', List.mem_cons_of_mem _ hd', hcd⟩, hfl, hnv⟩
      · intro d' hd' hfl
        rcases List.mem_cons.1 hd' with rfl | hd''
        · left
          by_contra hnv
          exact hc ⟨Map.is_floor_in_bounds hfl, hfl, hnv⟩
        · exact h5 d' hd'' hfl

/-- Specification of `bfsExpand` in terms of `Adj`. -/
theorem bfsExpand_spec (m : Map) (x y : Int) (dist : Nat)
    (q : List ((Int × Int) × Nat)) (v : List (Int × Int)) :
    ∃ new : List (Int × Int),
      (bfsExpand m x y dist (q, v)).1 = q ++ new.map (fun c => (c, dist + 1)) ∧
      (bfsExpand m x y dist (q, v)).2 = v ++ new ∧
      new.Nodup ∧
      (∀ c ∈ new, Adj (x, y) c ∧ m.is_floor c.1 c.2 = true ∧ c ∉ v) ∧
      (∀ c, Adj (x, y) c → m.is_floor c.1 c.2 = true → c ∈ v ∨ c ∈ new) := by
  obtain ⟨new, h1, h2, h3, h4, h5⟩ := bfsStep_foldl_spec m x y dist directions q v
  refine ⟨new, h1, h2, h3, ?_, ?_⟩
  · intro c hmem
    obtain ⟨⟨d, hd, hcd⟩, hfl, hnv⟩ := h4 _ hmem
    exact ⟨⟨d, hd, hcd⟩, hfl, hnv⟩
  · rintro c ⟨d, hd, rfl⟩ hfl
    exact h5 d hd hfl

/-- The finite set of in-bounds coordinates. -/
def inBoundsFinset (m : Map) : Finset (Int × Int) :=
  ((Finset.range m.width) ×ˢ (Finset.range m.height)).image
    (fun p => ((p.1 : Int), (p.2 : Int)))

theorem mem_inBoundsFinset (m : Map) (c : Int × Int) :
    c ∈ inBoundsFinset m ↔ m.in_bounds c.1 c.2 = true := by
  constructor
  · intro h
    obtain ⟨p, hp, hpc⟩ := Finset.mem_image.1 h
    obtain ⟨hp1, hp2⟩ := Finset.mem_product.1 hp
    simp only [Finset.mem_range] at hp1 hp2
    subst hpc
    simp only [Map.in_bounds, decide_eq_true_eq]
    refine ⟨by positivity, by exact_mod_cast hp1, by positivity, by exact_mod_cast hp2⟩
  · intro h
    simp only [Map.in_bounds, decide_eq_true_eq] at h
    obtain ⟨h1, h2, h3, h4⟩ := h
    refine Finset.mem_image.2 ⟨(c.1.toNat, c.2.toNat), ?_, ?_⟩
    · refine Finset.mem_product.2 ⟨Finset.mem_range.2 ?_, Finset.mem_range.2 ?_⟩ <;> omega
    · have e1 : ((c.1.toNat : Int)) = c.1 := Int.toNat_of_nonneg h1
      have e2 : ((c.2.toNat : Int)) = c.2 := Int.toNat_of_nonneg h3
      exact Prod.ext e1 e2

/-- Termination measure of the BFS loop. -/
def bfsMeasure (m : Map) (q : List ((Int × Int) × Nat)) (v : List (Int × Int)) : Nat :=
  5 * ((inBoundsFinset m) \ v.toFinset).card + q.length

theorem bfsExpand_measure_le (m : Map) (x y : Int) (dist : Nat)
    (q : List ((Int × Int) × Nat)) (v : List (Int × Int)) :
    bfsMeasure m (bfsExpand m x y dist (q, v)).1 (bfsExpand m x y dist (q, v)).2 ≤
      bfsMeasure m q v := by
  obtain ⟨new, h1, h2, h3, h4, _⟩ := bfsExpand_spec m x y dist q v
  have hsub : new.toFinset ⊆ (inBoundsFinset m) \ v.toFinset := by
    intro c hc
    have hc' := List.mem_toFinset.1 hc
    obtain ⟨_, hfl, hnv⟩ := h4 _ hc'
    refine Finset.mem_sdiff.2 ⟨(mem_inBoundsFinset m c).2 (Map.is_floor_in_bounds hfl), ?_⟩
    exact fun hv => hnv (List.mem_toFinset.1 hv)
  have hcard : ((inBoundsFinset m) \ (v ++ new).toFinset).card =
      ((inBoundsFinset m) \ v.toFinset).card - new.length := by
    have e1 : (v ++ new).toFinset = v.toFinset ∪ new.toFinset := List.toFinset_append
    have e2 : (inBoundsFinset m) \ (v.toFinset ∪ new.toFinset) =
        ((inBoundsFinset m) \ v.toFinset) \ new.toFinset := by
      ext a; simp [Finset.mem_sdiff]; tauto
    rw [e1, e2, Finset.card_sdiff hsub, List.toFinset_card_of_nodup h3]
  have hle : new.length ≤ ((inBoundsFinset m) \ v.toFinset).card := by
    calc new.length = new.toFinset.card := (List.toFinset_card_of_nodup h3).symm
    _ ≤ _ := Finset.card_le_card hsub
  simp only [bfsMeasure, h1, h2, hcard, List.length_append, List.length_map]
  omega

/-- The BFS `while` loop of `calculate_shortest_path`, with fuel.
`none` means the fuel ran out (shown impossible below); `some (-1)` is the
`return -1` after the queue empties; `some dist` the early return on
dequeuing the target. -/
def bfsLoop (m : Map) (ex ey : Int) :
    Nat → List ((Int × Int) × Nat) → List (Int × Int) → Option Int
  | _, [], _ => some (-1)
  | 0, _ :: _, _ => none
  | fuel + 1, (c, dist) :: rest, visited =>
    if c.1 = ex ∧ c.2 = ey then some (dist : Int)
    else
      bfsLoop m ex ey fuel (bfsExpand m c.1 c.2 dist (rest, visited)).1
        (bfsExpand m c.1 c.2 dist (rest, visited)).2

theorem bfsLoop_isSome (m : Map) (ex ey : Int) :
    ∀ (fuel : Nat) (q : List ((Int × Int) × Nat)) (v : List (Int × Int)),
      bfsMeasure m q v ≤ fuel → (bfsLoop m ex ey fuel q v).isSome = true := by
  intro fuel
  induction fuel with
  | zero =>
    intro q v hm
    match q with
    | [] => rfl
    | e :: rest =>
      exfalso
      simp [bfsMeasure] at hm
  | succ fuel ih =>
    intro q v hm
    match q with
    | [] => rfl
    | (c, dist) :: rest =>
      rw [bfsLoop]
      by_cases ht : c.1 = ex ∧ c.2 = ey
      · rw [if_pos ht]; rfl
      · rw [if_neg ht]
        refine ih _ _ ?_
        have h1 := bfsExpand_measure_le m c.1 c.2 dist rest v
        have h2 : bfsMeasure m rest v + 1 = bfsMeasure m ((c, dist) :: rest) v := by
          simp [bfsMeasure]; omega
        omega

/-- Fuel with which `calculate_shortest_path` runs its loop; always enough. -/
def bfsFuel (m : Map) : Nat :=
  5 * (m.width * m.height) + 1

theorem inBoundsFinset_card_le (m : Map) :
    (inBoundsFinset m).card ≤ m.width * m.height := by
  calc (inBoundsFinset m).card ≤ ((Finset.range m.width) ×ˢ (Finset.range m.height)).card :=
        Finset.card_image_le
  _ = m.width * m.height := by simp

/-- `AIDirector.calculate_shortest_path`. -/
def calculate_shortest_path (m : Map) (sx sy ex ey : Int) : Int :=
  if ¬ (m.is_floor sx sy = true) ∨ ¬ (m.is_floor ex ey = true) then -1
  else
    (bfsLoop m ex ey (bfsFuel m) [((sx, sy), 0)] [(sx, sy)]).getD (-1)

/-! ## BFS invariant and correctness -/

/-- Coordinates held in a queue of `(cell, dist)` pairs. -/
def qcells (q : List ((Int × Int) × Nat)) : List (Int × Int) :=
  q.map Prod.fst

theorem qcells_append_new (rest : List ((Int × Int) × Nat)) (new : List (Int × Int))
    (d : Nat) :
    qcells (rest ++ new.map (fun c => (c, d))) = qcells rest ++ new := by
  simp [qcells, List.map_map, Function.comp_def]

/-- Invariant of the BFS loop of `calculate_shortest_path`, for source `s`
and target `t`:  `v` is the set of ever-enqueued cells, queue entries carry
their exact shortest distance, the queue is a block of distance-`D` entries
followed by distance-`D+1` entries, every cell strictly closer than the
front has been fully processed, processed cells have all their floor
neighbours discovered, the queue has no duplicate cells, and the target is
still enqueued if ever discovered. -/
structure BfsInv (m : Map) (s t : Int × Int)
    (q : List ((Int × Int) × Nat)) (v : List (Int × Int)) : Prop where
  start_mem : s ∈ v
  reach_mem : ∀ c ∈ v, ∃ n, Reach m s c n
  q_sub : ∀ e ∈ q, e.1 ∈ v
  q_sdist : ∀ e ∈ q, SDist m s e.1 e.2
  block : ∃ D qa qb, q = qa ++ qb ∧ (∀ e ∈ qa, e.2 = D) ∧ (∀ e ∈ qb, e.2 = D + 1) ∧
    (qa = [] → qb = []) ∧
    (∀ c k, SDist m s c k → k < D → c ∈ v ∧ c ∉ qcells q)
  closed : ∀ c ∈ v, c ∉ qcells q → ∀ c', Adj c c' → m.is_floor c'.1 c'.2 = true → c' ∈ v
  nodupq : (qcells q).Nodup
  t_track : t ∈ v → t ∈ qcells q

/-- On a non-empty queue the block decomposition starts at the front's
distance. -/
theorem BfsInv.front_block {m : Map} {s t c0 : Int × Int} {d0 : Nat}
    {rest : List ((Int × Int) × Nat)} {v : List (Int × Int)}
    (inv : BfsInv m s t ((c0, d0) :: rest) v) :
    ∃ qa qb, rest = qa ++ qb ∧ (∀ e ∈ qa, e.2 = d0) ∧ (∀ e ∈ qb, e.2 = d0 + 1) ∧
      (∀ c k, SDist m s c k → k < d0 → c ∈ v ∧ c ∉ qcells ((c0, d0) :: rest)) := by
  obtain ⟨D, qa, qb, hsplit, ha, hb, hne, hlow⟩ := inv.block
  match qa, hsplit with
  | [], hsplit =>
    exfalso
    rw [hne rfl] at hsplit
    simp at hsplit
  | e :: qa', hsplit =>
    have he : e = (c0, d0) := by
      have := congrArg List.head? hsplit
      simpa using this.symm
    have hD : D = d0 := by
      have := ha e (List.mem_cons_self _ _)
      rw [he] at this
      exact this.symm
    have hrest : rest = qa' ++ qb := by
      have := congrArg List.tail hsplit
      simpa using this
    subst hD
    exact ⟨qa', qb, hrest, fun e' h' => ha e' (List.mem_cons_of_mem _ h'), hb, hlow⟩

/-- Every cell whose shortest distance is at most the front's distance has
already been discovered. -/
theorem BfsInv.mem_of_sdist_le {m : Map} {s t c0 : Int × Int} {d0 : Nat}
    {rest : List ((Int × Int) × Nat)} {v : List (Int × Int)}
    (inv : BfsInv m s t ((c0, d0) :: rest) v) :
    ∀ k c, SDist m s c k → k ≤ d0 → c ∈ v := by
  obtain ⟨qa, qb, hrest, ha, hb, hlow⟩ := inv.front_block
  intro k
  induction k using Nat.strong_induction_on with
  | _ k ih =>
    intro c hc hk
    match k, hc with
    | 0, hc =>
      cases hc.1
      exact inv.start_mem
    | j + 1, hc =>
      cases hc.1 with
      | step h hadj hfl =>
        obtain ⟨k', hk', hk'le⟩ := exists_sdist h
        have hlt : k' < d0 := by omega
        obtain ⟨hmem, hnq⟩ := hlow _ k' hk' hlt
        exact inv.closed _ hmem hnq _ hadj hfl

/-- One non-target dequeue preserves the invariant. -/
theorem BfsInv.bfs_preserved {m : Map} {s t c0 : Int × Int} {d0 : Nat}
    {rest : List ((Int × Int) × Nat)} {v : List (Int × Int)}
    (inv : BfsInv m s t ((c0, d0) :: rest) v) (hne : c0 ≠ t) :
    BfsInv m s t (bfsExpand m c0.1 c0.2 d0 (rest, v)).1
      (bfsExpand m c0.1 c0.2 d0 (rest, v)).2 := by
  obtain ⟨new, h1, h2, hnodup, hprops, hcomplete⟩ := bfsExpand_spec m c0.1 c0.2 d0 rest v
  have hc0 : ((c0.1, c0.2) : Int × Int) = c0 := rfl
  rw [hc0] at hprops hcomplete
  have hfront : SDist m s c0 d0 := inv.q_sdist _ (List.mem_cons_self _ _)
  have hq' : qcells (bfsExpand m c0.1 c0.2 d0 (rest, v)).1 = qcells rest ++ new := by
    rw [h1, qcells_append_new]
  have hnew_sdist : ∀ c ∈ new, SDist m s c (d0 + 1) := by
    intro c hcnew
    obtain ⟨hadj, hfl, hnv⟩ := hprops _ hcnew
    refine ⟨Reach.step hfront.1 hadj hfl, ?_⟩
    intro kk hkk
    by_contra hlt
    push_neg at hlt
    obtain ⟨k', hk', hk'le⟩ := exists_sdist hkk
    exact hnv (inv.mem_of_sdist_le k' c hk' (by omega))
  have hrest_sub : ∀ e ∈ rest, e.1 ∈ v := fun e he =>
    inv.q_sub e (List.mem_cons_of_mem _ he)
  have hnew_notin_v : ∀ c ∈ new, c ∉ v := fun c hc => (hprops _ hc).2.2
  constructor
  case start_mem => rw [h2]; exact List.mem_append_left _ inv.start_mem
  case reach_mem =>
    rw [h2]
    intro c hc
    rcases List.mem_append.1 hc with hc' | hc'
    · exact inv.reach_mem _ hc'
    · exact ⟨d0 + 1, (hnew_sdist _ hc').1⟩
  case q_sub =>
    rw [h1, h2]
    intro e he
    rcases List.mem_append.1 he with he' | he'
    · exact List.mem_append_left _ (hrest_sub _ he')
    · obtain ⟨c, hc, rfl⟩ := List.mem_map.1 he'
      exact List.mem_append_right _ hc
  case q_sdist =>
    rw [h1]
    intro e he
    rcases List.mem_append.1 he with he' | he'
    · exact inv.q_sdist _ (List.mem_cons_of_mem _ he')
    · obtain ⟨c, hc, rfl⟩ := List.mem_map.1 he'
      exact hnew_sdist _ hc
  case nodupq =>
    rw [hq']
    refine List.nodup_append.2 ⟨?_, hnodup, ?_⟩
    · have := inv.nodupq
      simp only [qcells, List.map_cons] at this
      exact this.of_cons
    · intro a ha1 ha2
      simp only [qcells] at ha1
      obtain ⟨e, he, rfl⟩ := List.mem_map.1 ha1
      exact hnew_notin_v _ ha2 (hrest_sub _ he)
  case t_track =>
    rw [h2, hq']
    intro ht
    rcases List.mem_append.1 ht with ht' | ht'
    · have := inv.t_track ht'
      simp only [qcells, List.map_cons] at this
      rcases List.mem_cons.1 this with h | h
      · exact absurd h.symm hne
      · exact List.mem_append_left _ h
    · exact List.mem_append_right _ ht'
  case closed =>
    rw [h2, hq']
    intro c hc hnq c' hadj hfl
    rcases List.mem_append.1 hc with hcv | hcnew
    · by_cases hcq : c ∈ qcells ((c0, d0) :: rest)
      · simp only [qcells, List.map_cons] at hcq
        rcases List.mem_cons.1 hcq with h | h
        · subst h
          rcases hcomplete c' hadj hfl with hv | hnew'
          · exact List.mem_append_left _ hv
          · exact List.mem_append_right _ hnew'
        · exact absurd (List.mem_append_left _ h) hnq
      · have := inv.closed c hcv hcq c' hadj hfl
        exact List.mem_append_left _ this
    · exact absurd (List.mem_append_right _ hcnew) hnq
  case block =>
    obtain ⟨qa', qb, hrest, ha, hb, hlow⟩ := inv.front_block
    match qa' with
    | [] =>
      refine ⟨d0 + 1, (bfsExpand m c0.1 c0.2 d0 (rest, v)).1, [], by simp, ?_, by simp,
        fun _ => rfl, ?_⟩
      · rw [h1]
        intro e he
        rcases List.mem_append.1 he with he' | he'
        · rw [hrest] at he'
          exact hb _ (by simpa using he')
        · obtain ⟨c, hc, rfl⟩ := List.mem_map.1 he'
          rfl
      · intro c k hck hk
        refine ⟨?_, ?_⟩
        · rw [h2]
          exact List.mem_append_left _ (inv.mem_of_sdist_le k c hck (by omega))
        · rw [hq']
          intro hmem
          have hsd : SDist m s c (d0 + 1) := by
            rcases List.mem_append.1 hmem with h | h
            · have h' : c ∈ List.map Prod.fst rest := h
              obtain ⟨e, he, hec⟩ := List.mem_map.1 h'
              have he2 : e.2 = d0 + 1 := by
                rw [hrest] at he
                exact hb _ (by simpa using he)
              have hsde := inv.q_sdist e (List.mem_cons_of_mem _ he)
              rw [he2] at hsde
              rwa [hec] at hsde
            · exact hnew_sdist _ h
          have := hck.unique hsd
          omega
    | ea :: qa'' =>
      refine ⟨d0, ea :: qa'', qb ++ new.map (fun c => (c, d0 + 1)), ?_, ha, ?_, ?_, ?_⟩
      · rw [h1, hrest, List.append_assoc]
      · intro e he
        rcases List.mem_append.1 he with he' | he'
        · exact hb _ he'
        · obtain ⟨c, hc, rfl⟩ := List.mem_map.1 he'
          rfl
      · intro h
        exact absurd h (List.cons_ne_nil _ _)
      · intro c k hck hk
        obtain ⟨hmemv, hnq⟩ := hlow c k hck hk
        refine ⟨by rw [h2]; exact List.mem_append_left _ hmemv, ?_⟩
        rw [hq']
        intro hmem
        rcases List.mem_append.1 hmem with h | h
        · exact hnq (by simp only [qcells, List.map_cons]; exact List.mem_cons_of_mem _ h)
        · exact hnew_notin_v _ h hmemv

/-- The initial BFS state satisfies the invariant. -/
theorem bfsInv_init (m : Map) (s t : Int × Int) : BfsInv m s t [(s, 0)] [s] := by
  constructor
  case start_mem => exact List.mem_singleton.2 rfl
  case reach_mem =>
    intro c hc
    rw [List.mem_singleton.1 hc]
    exact ⟨0, Reach.refl _⟩
  case q_sub =>
    intro e he
    rw [List.mem_singleton.1 he]
    exact List.mem_singleton.2 rfl
  case q_sdist =>
    intro e he
    rw [List.mem_singleton.1 he]
    exact ⟨Reach.refl _, fun k _ => Nat.zero_le _⟩
  case block =>
    exact ⟨0, [(s, 0)], [], rfl, by simp, by simp, by simp, fun c k _ hk => absurd hk (by omega)⟩
  case closed =>
    intro c hc hnq
    exfalso
    exact hnq (by simpa [qcells] using hc)
  case nodupq => simp [qcells]
  case t_track =>
    intro ht
    simpa [qcells] using List.mem_singleton.1 ht

/-- When the queue has emptied, the target was unreachable. -/
theorem bfsInv_empty_not_reach {m : Map} {s t : Int × Int} {v : List (Int × Int)}
    (inv : BfsInv m s t [] v) : ¬ ∃ n, Reach m s t n := by
  rintro ⟨n, hn⟩
  have hmem : ∀ c k, Reach m s c k → c ∈ v := by
    intro c k h
    induction h with
    | refl => exact inv.start_mem
    | step h hadj hfl ih => exact inv.closed _ ih (by simp [qcells]) _ hadj hfl
  have := inv.t_track (hmem _ _ hn)
  simp [qcells] at this

/-- If the loop returns, the result is `-1` exactly when the target is
unreachable, and the true shortest distance otherwise. -/
theorem bfsLoop_correct (m : Map) (s t : Int × Int) :
    ∀ (fuel : Nat) (q : List ((Int × Int) × Nat)) (v : List (Int × Int)),
      BfsInv m s t q v → ∀ r, bfsLoop m t.1 t.2 fuel q v = some r →
        (r = -1 ∧ ¬ ∃ n, Reach m s t n) ∨
        (∃ n : Nat, r = (n : Int) ∧ SDist m s t n) := by
  intro fuel
  induction fuel with
  | zero =>
    intro q v inv r hr
    match q, hr with
    | [], hr =>
      left
      refine ⟨by simpa [bfsLoop] using hr.symm, bfsInv_empty_not_reach inv⟩
    | e :: rest, hr => exact absurd hr (by simp [bfsLoop])
  | succ fuel ih =>
    intro q v inv r hr
    match q, hr with
    | [], hr =>
      left
      refine ⟨by simpa [bfsLoop] using hr.symm, bfsInv_empty_not_reach inv⟩
    | (c0, d0) :: rest, hr =>
      rw [bfsLoop] at hr
      by_cases htgt : c0.1 = t.1 ∧ c0.2 = t.2
      · rw [if_pos htgt] at hr
        have hc0 : c0 = t := Prod.ext htgt.1 htgt.2
        right
        refine ⟨d0, by simpa using hr.symm, ?_⟩
        have := inv.q_sdist _ (List.mem_cons_self ((c0, d0)) rest)
        rwa [hc0] at this
      · rw [if_neg htgt] at hr
        have hne : c0 ≠ t := by
          intro h
          exact htgt ⟨by rw [h], by rw [h]⟩
        exact ih _ _ (inv.bfs_preserved hne) r hr

/-- Full characterization of `calculate_shortest_path` on floor endpoints. -/
theorem csp_spec (m : Map) (sx sy ex ey : Int)
    (hs : m.is_floor sx sy = true) (he : m.is_floor ex ey = true) :
    (calculate_shortest_path m sx sy ex ey = -1 ∧ ¬ ∃ n, Reach m (sx, sy) (ex, ey) n) ∨
    (∃ n : Nat, calculate_shortest_path m sx sy ex ey = (n : Int) ∧
      SDist m (sx, sy) (ex, ey) n) := by
  have hmeas : bfsMeasure m [((sx, sy), 0)] [(sx, sy)] ≤ bfsFuel m := by
    have h1 : ((inBoundsFinset m) \ ([(sx, sy)] : List (Int × Int)).toFinset).card ≤
        (inBoundsFinset m).card := Finset.card_le_card (Finset.sdiff_subset)
    have h2 := inBoundsFinset_card_le m
    simp only [bfsMeasure, bfsFuel, List.length_singleton]
    omega
  have hsome := bfsLoop_isSome m ex ey (bfsFuel m) _ _ hmeas
  obtain ⟨r, hr⟩ := Option.isSome_iff_exists.1 hsome
  have hcorr := bfsLoop_correct m (sx, sy) (ex, ey) (bfsFuel m) _ _
    (bfsInv_init m (sx, sy) (ex, ey)) r hr
  have hval : calculate_shortest_path m sx sy ex ey = r := by
    unfold calculate_shortest_path
    rw [if_neg (by simp [hs, he]), hr]
    rfl
  rw [hval]
  exact hcorr

/-- The `-1` guard of `calculate_shortest_path` on a non-floor endpoint. -/
theorem csp_not_floor (m : Map) (sx sy ex ey : Int)
    (h : m.is_floor sx sy = false ∨ m.is_floor ex ey = false) :
    calculate_shortest_path m sx sy ex ey = -1 := by
  unfold calculate_shortest_path
  rw [if_pos]
  rcases h with h | h
  · exact Or.inl (by simp [h])
  · exact Or.inr (by simp [h])

/-- **C1.** `calculate_shortest_path` returns `-1` when an endpoint is not
floor; on floor endpoints it returns the length of a shortest 4-directional
floor path, and `-1` exactly when no floor path connects the endpoints. -/
theorem calculate_shortest_path_correct (m : Map) (sx sy ex ey : Int) :
    ((m.is_floor sx sy = false ∨ m.is_floor ex ey = false) →
      calculate_shortest_path m sx sy ex ey = -1) ∧
    (m.is_floor sx sy = true → m.is_floor ex ey = true →
      (∀ n, SDist m (sx, sy) (ex, ey) n →
        calculate_shortest_path m sx sy ex ey = (n : Int)) ∧
      (calculate_shortest_path m sx sy ex ey = -1 ↔
        ¬ ∃ k, Reach m (sx, sy) (ex, ey) k)) := by
  constructor
  · exact csp_not_floor m sx sy ex ey
  · intro hs he
    rcases csp_spec m sx sy ex ey hs he with ⟨h1, h2⟩ | ⟨n, hn, hsd⟩
    · constructor
      · intro n hsd
        exact absurd ⟨n, hsd.1⟩ h2
      · exact ⟨fun _ => h2, fun _ => h1⟩
    · constructor
      · intro k hk
        rw [hn, hsd.unique hk]
      · constructor
        · intro hm
          rw [hn] at hm
          exfalso
          omega
        · intro hnr
          exact absurd ⟨n, hsd.1⟩ hnr

/-- The 5×5 plus-shaped example map of the spec: all wall except the floor
cells `(2,1), (1,2), (2,2), (3,2), (2,3)`. -/
def plusMap : Map :=
  (((((Map.init 5 5).set_cell 2 1 '.').set_cell 1 2 '.').set_cell 2 2
    '.').set_cell 3 2 '.').set_cell 2 3 '.'

/-- Witness for C1: on the plus map, a wall endpoint gives `-1`, and the
shortest distance from `(2,1)` to itself is reported as `0`. -/
theorem calculate_shortest_path_correct_witness :
    calculate_shortest_path plusMap 0 0 2 2 = -1 ∧
    calculate_shortest_path plusMap 2 1 2 1 = 0 := by
  constructor
  · exact (calculate_shortest_path_correct plusMap 0 0 2 2).1 (Or.inl (by decide))
  · have h := ((calculate_shortest_path_correct plusMap 2 1 2 1).2 (by decide)
      (by decide)).1 0 ⟨Reach.refl _, fun k _ => Nat.zero_le _⟩
    simpa using h

/-- **C7.** `calculate_shortest_path p p = 0` on a floor cell `p`, and the
function is symmetric in its endpoints (including the `-1` cases). -/
theorem calculate_shortest_path_refl_symm (m : Map) (px py qx qy : Int) :
    (m.is_floor px py = true → calculate_shortest_path m px py px py = 0) ∧
    calculate_shortest_path m px py qx qy = calculate_shortest_path m qx qy px py := by
  constructor
  · intro h
    rcases csp_spec m px py px py h h with ⟨_, h2⟩ | ⟨n, hn, hsd⟩
    · exact absurd ⟨0, Reach.refl _⟩ h2
    · have : n = 0 := hsd.unique ⟨Reach.refl _, fun k _ => Nat.zero_le _⟩
      rw [hn, this]
      rfl
  · by_cases hp : m.is_floor px py = true
    · by_cases hq : m.is_floor qx qy = true
      · have hiff : (∃ n, Reach m (px, py) (qx, qy) n) ↔
            (∃ n, Reach m (qx, qy) (px, py) n) := by
          constructor
          · rintro ⟨n, hn⟩; exact ⟨n, hn.reverse hp⟩
          · rintro ⟨n, hn⟩; exact ⟨n, hn.reverse hq⟩
        rcases csp_spec m px py qx qy hp hq with ⟨e1, h1⟩ | ⟨n, hn, hsd⟩ <;>
          rcases csp_spec m qx qy px py hq hp with ⟨e2, h2⟩ | ⟨n', hn', hsd'⟩
        · rw [e1, e2]
        · exact absurd (hiff.2 ⟨n', hsd'.1⟩) h1
        · exact absurd (hiff.1 ⟨n, hsd.1⟩) h2
        · have : n = n' := by
            have hle : n ≤ n' := hsd.2 _ (hsd'.1.reverse hq)
            have hge : n' ≤ n := hsd'.2 _ (hsd.1.reverse hp)
            omega
          rw [hn, hn', this]
      · have hq' : m.is_floor qx qy = false := by
          simpa using hq
        rw [csp_not_floor m px py qx qy (Or.inr hq'),
          csp_not_floor m qx qy px py (Or.inl hq')]
    · have hp' : m.is_floor px py = false := by
        simpa using hp
      rw [csp_not_floor m px py qx qy (Or.inl hp'),
        csp_not_floor m qx qy px py (Or.inr hp')]

/-- Witness for C7 on the plus map. -/
theorem calculate_shortest_path_refl_symm_witness :
    calculate_shortest_path plusMap 1 2 1 2 = 0 ∧
    calculate_shortest_path plusMap 1 2 3 2 = calculate_shortest_path plusMap 3 2 1 2 := by
  exact ⟨(calculate_shortest_path_refl_symm plusMap 1 2 1 2).1 (by decide),
    (calculate_shortest_path_refl_symm plusMap 1 2 3 2).2⟩

/-! ## Dead ends and openness -/

/-- The floor-neighbour count used by `count_dead_ends`. -/
def floorNeighborCount (m : Map) (x y : Int) : Nat :=
  directions.countP (fun d =>
    m.in_bounds (x + d.1) (y + d.2) && m.is_floor (x + d.1) (y + d.2))

/-- `AIDirector.count_dead_ends`: floor cells with exactly one floor
neighbour among the four axis-aligned neighbours. -/
def count_dead_ends (m : Map) : Nat :=
  ((List.range m.height).map (fun (y : Nat) =>
    (List.range m.width).countP (fun (x : Nat) =>
      m.is_floor (x : Int) (y : Int) &&
        (floorNeighborCount m (x : Int) (y : Int) == 1)))).sum

/-- `AIDirector.calculate_openness_score`: `100 * floor / total`, guarded by
`total = 0 → 0.0`.  Python's float division is modelled as exact rational
division (exact at every instance the claims evaluate). -/
def calculate_openness_score (m : Map) : Rat :=
  let floor_count := m.get_all_floor_tiles.length
  let total_tiles := m.width * m.height
  if total_tiles = 0 then 0 else ((floor_count : Rat) / (total_tiles : Rat)) * 100

/-- **C8.** On the 5×5 plus map: shortest path `(2,1) → (2,3)` is `2`, there
are `4` dead ends, and the openness score is exactly `20`. -/
theorem plus_map_metrics :
    calculate_shortest_path plusMap 2 1 2 3 = 2 ∧
    count_dead_ends plusMap = 4 ∧
    calculate_openness_score plusMap = 20 := by
  refine ⟨by decide, by decide, ?_⟩
  have h : plusMap.get_all_floor_tiles.length = 5 := by decide
  have hw : plusMap.width = 5 := by decide
  have hh : plusMap.height = 5 := by decide
  simp only [calculate_openness_score, h, hw, hh]
  norm_num

/-! ## `AIDirector.find_strategic_exit_position` -/

/-- One direction of the neighbour scan inside `find_strategic_exit_position`:
here `visited` is the distance dict, an insertion-ordered association list. -/
def stratStep (m : Map) (x y : Int) (dist : Nat)
    (acc : List ((Int × Int) × Nat) × List ((Int × Int) × Nat)) (d : Int × Int) :
    List ((Int × Int) × Nat) × List ((Int × Int) × Nat) :=
  let nx := x + d.1
  let ny := y + d.2
  if m.in_bounds nx ny = true ∧ m.is_floor nx ny = true ∧
      (nx, ny) ∉ acc.2.map Prod.fst then
    (acc.1 ++ [((nx, ny), dist + 1)], acc.2 ++ [((nx, ny), dist + 1)])
  else acc

/-- The full direction scan for one dequeued cell of the strategic-exit BFS. -/
def stratExpand (m : Map) (x y : Int) (dist : Nat)
    (qv : List ((Int × Int) × Nat) × List ((Int × Int) × Nat)) :
    List ((Int × Int) × Nat) × List ((Int × Int) × Nat) :=
  directions.foldl (stratStep m x y dist) qv

theorem stratStep_foldl_spec (m : Map) (x y : Int) (dist : Nat) :
    ∀ (ds : List (Int × Int)) (q v : List ((Int × Int) × Nat)),
    ∃ new : List (Int × Int),
      (ds.foldl (stratStep m x y dist) (q, v)).1 = q ++ new.map (fun c => (c, dist + 1)) ∧
      (ds.foldl (stratStep m x y dist) (q, v)).2 = v ++ new.map (fun c => (c, dist + 1)) ∧
      new.Nodup ∧
      (∀ c ∈ new, (∃ d ∈ ds, c = (x + d.1, y + d.2)) ∧
        m.is_floor c.1 c.2 = true ∧ c ∉ v.map Prod.fst) ∧
      (∀ d ∈ ds, m.is_floor (x + d.1) (y + d.2) = true →
        (x + d.1, y + d.2) ∈ v.map Prod.fst ∨ (x + d.1, y + d.2) ∈ new) := by
  intro ds
  induction ds with
  | nil => intro q v; exact ⟨[], by simp⟩
  | cons d ds ih =>
    intro q v
    by_cases hc : m.in_bounds (x + d.1) (y + d.2) = true ∧
        m.is_floor (x + d.1) (y + d.2) = true ∧ (x + d.1, y + d.2) ∉ v.map Prod.fst
    · obtain ⟨new, h1, h2, h3, h4, h5⟩ :=
        ih (q ++ [((x + d.1, y + d.2), dist + 1)]) (v ++ [((x + d.1, y + d.2), dist + 1)])
      have hstep : stratStep m x y dist (q, v) d =
          (q ++ [((x + d.1, y + d.2), dist + 1)], v ++ [((x + d.1, y + d.2), dist + 1)]) := by
        simp [stratStep, hc]
      refine ⟨(x + d.1, y + d.2) :: new, ?_, ?_, ?_, ?_, ?_⟩
      · simp only [List.foldl_cons, hstep, h1, List.map_cons, List.append_assoc,
          List.singleton_append]
      · simp only [List.foldl_cons, hstep, h2, List.map_cons, List.append_assoc,
          List.singleton_append]
      · refine List.nodup_cons.2 ⟨?_, h3⟩
        intro hmem
        have := (h4 _ hmem).2.2
        simp at this
      · intro c hmem
        rcases List.mem_cons.1 hmem with rfl | hmem'
        · exact ⟨⟨d, List.mem_cons_self _ _, rfl⟩, hc.2.1, hc.2.2⟩
        · obtain ⟨⟨d', hd', hcd⟩, hfl, hnv⟩ := h4 _ hmem'
          refine ⟨⟨d', List.mem_cons_of_mem _ hd', hcd⟩, hfl, ?_⟩
          intro hcv
          refine hnv ?_
          rw [List.map_append]
          exact List.mem_append_left _ hcv
      · intro d' hd' hfl
        rcases List.mem_cons.1 hd' with rfl | hd''
        · right; exact List.mem_cons_self _ _
        · rcases h5 d' hd'' hfl with hv | hnew
          · rw [List.map_append] at hv
            rcases List.mem_append.1 hv with hv' | hv'
            · left; exact hv'
            · right
              simp only [List.map_cons, List.map_nil, List.mem_singleton] at hv'
              exact hv' ▸ List.mem_cons_self _ _
          · right; exact List.mem_cons_of_mem _ hnew
    · obtain ⟨new, h1, h2, h3, h4, h5⟩ := ih q v
      have hstep : stratStep m x y dist (q, v) d = (q, v) := by
        simp only [stratStep]
        rw [if_neg hc]
      refine ⟨new, ?_, ?_, h3, ?_, ?_⟩
      · simpa only [List.foldl_cons, hstep] using h1
      · simpa only [List.foldl_cons, hstep] using h2
      · intro c hmem
        obtain ⟨⟨d', hd', hcd⟩, hfl, hnv⟩ := h4 _ hmem
        exact ⟨⟨d', List.mem_cons_of_mem _ hd', hcd⟩, hfl, hnv⟩
      · intro d' hd' hfl
        rcases List.mem_cons.1 hd' with rfl | hd''
        · left
          by_contra hnv
          exact hc ⟨Map.is_floor_in_bounds hfl, hfl, hnv⟩
        · exact h5 d' hd'' hfl

/-- Specification of `stratExpand` in terms of `Adj`. -/
theorem stratExpand_spec (m : Map) (x y : Int) (dist : Nat)
    (q v : List ((Int × Int) × Nat)) :
    ∃ new : List (Int × Int),
      (stratExpand m x y dist (q, v)).1 = q ++ new.map (fun c => (c, dist + 1)) ∧
      (stratExpand m x y dist (q, v)).2 = v ++ new.map (fun c => (c, dist + 1)) ∧
      new.Nodup ∧
      (∀ c ∈ new, Adj (x, y) c ∧ m.is_floor c.1 c.2 = true ∧ c ∉ v.map Prod.fst) ∧
      (∀ c, Adj (x, y) c → m.is_floor c.1 c.2 = true →
        c ∈ v.map Prod.fst ∨ c ∈ new) := by
  obtain ⟨new, h1, h2, h3, h4, h5⟩ := stratStep_foldl_spec m x y dist directions q v
  refine ⟨new, h1, h2, h3, ?_, ?_⟩
  · intro c hmem
    obtain ⟨⟨d, hd, hcd⟩, hfl, hnv⟩ := h4 _ hmem
    exact ⟨⟨d, hd, hcd⟩, hfl, hnv⟩
  · rintro c ⟨d, hd, rfl⟩ hfl
    exact h5 d hd hfl

/-- Termination measure of the strategic-exit BFS loop. -/
def stratMeasure (m : Map) (q v : List ((Int × Int) × Nat)) : Nat :=
  5 * ((inBoundsFinset m) \ (v.map Prod.fst).toFinset).card + q.length

theorem stratExpand_measure_le (m : Map) (x y : Int) (dist : Nat)
    (q v : List ((Int × Int) × Nat)) :
    stratMeasure m (stratExpand m x y dist (q, v)).1 (stratExpand m x y dist (q, v)).2 ≤
      stratMeasure m q v := by
  obtain ⟨new, h1, h2, h3, h4, _⟩ := stratExpand_spec m x y dist q v
  have hkeys : ((stratExpand m x y dist (q, v)).2).map Prod.fst = v.map Prod.fst ++ new := by
    rw [h2, List.map_append, List.map_map]
    simp [Function.comp_def]
  have hsub : new.toFinset ⊆ (inBoundsFinset m) \ (v.map Prod.fst).toFinset := by
    intro c hc
    have hc' := List.mem_toFinset.1 hc
    obtain ⟨_, hfl, hnv⟩ := h4 _ hc'
    refine Finset.mem_sdiff.2 ⟨(mem_inBoundsFinset m c).2 (Map.is_floor_in_bounds hfl), ?_⟩
    exact fun hv => hnv (List.mem_toFinset.1 hv)
  have hcard : ((inBoundsFinset m) \ (v.map Prod.fst ++ new).toFinset).card =
      ((inBoundsFinset m) \ (v.map Prod.fst).toFinset).card - new.length := by
    have e1 : (v.map Prod.fst ++ new).toFinset =
        (v.map Prod.fst).toFinset ∪ new.toFinset := List.toFinset_append
    have e2 : (inBoundsFinset m) \ ((v.map Prod.fst).toFinset ∪ new.toFinset) =
        ((inBoundsFinset m) \ (v.map Prod.fst).toFinset) \ new.toFinset := by
      ext a; simp [Finset.mem_sdiff]; tauto
    rw [e1, e2, Finset.card_sdiff hsub, List.toFinset_card_of_nodup h3]
  have hle : new.length ≤ ((inBoundsFinset m) \ (v.map Prod.fst).toFinset).card := by
    calc new.length = new.toFinset.card := (List.toFinset_card_of_nodup h3).symm
    _ ≤ _ := Finset.card_le_card hsub
  simp only [stratMeasure, h1, hkeys, hcard, List.length_append, List.length_map]
  omega

/-- The BFS `while` loop of `find_strategic_exit_position`, with fuel,
returning the final distance dict. -/
def stratLoop (m : Map) :
    Nat → List ((Int × Int) × Nat) → List ((Int × Int) × Nat) →
      Option (List ((Int × Int) × Nat))
  | _, [], visited => some visited
  | 0, _ :: _, _ => none
  | fuel + 1, (c, dist) :: rest, visited =>
    stratLoop m fuel (stratExpand m c.1 c.2 dist (rest, visited)).1
      (stratExpand m c.1 c.2 dist (rest, visited)).2

theorem stratLoop_isSome (m : Map) :
    ∀ (fuel : Nat) (q v : List ((Int × Int) × Nat)),
      stratMeasure m q v ≤ fuel → (stratLoop m fuel q v).isSome = true := by
  intro fuel
  induction fuel with
  | zero =>
    intro q v hm
    match q with
    | [] => rfl
    | e :: rest =>
      exfalso
      simp [stratMeasure] at hm
  | succ fuel ih =>
    intro q v hm
    match q with
    | [] => rfl
    | (c, dist) :: rest =>
      rw [stratLoop]
      refine ih _ _ ?_
      have h1 := stratExpand_measure_le m c.1 c.2 dist rest v
      have h2 : stratMeasure m rest v + 1 = stratMeasure m ((c, dist) :: rest) v := by
        simp [stratMeasure]; omega
      omega

/-- `far_tiles`: keys of the distance dict whose distance is at least
`min_distance`, in insertion order. -/
def farTiles (visited : List ((Int × Int) × Nat)) (minDistance : Int) :
    List (Int × Int) :=
  (visited.filter (fun e => minDistance ≤ (e.2 : Int))).map Prod.fst

/-- Python's `max(..., key=lambda item: item[1])`: first entry of maximal
distance (later entries replace only on strict increase). -/
def maxBySnd : List ((Int × Int) × Nat) → Option ((Int × Int) × Nat)
  | [] => none
  | e :: rest => some (rest.foldl (fun best f => if best.2 < f.2 then f else best) e)

/-- `AIDirector.find_strategic_exit_position`.  `random.choice` is modelled
by an injected index `choice` reduced modulo the candidate count. -/
def find_strategic_exit_position (m : Map) (px py : Int) (minDistance : Int)
    (choice : Nat) : Option (Int × Int) :=
  match stratLoop m (bfsFuel m) [((px, py), 0)] [((px, py), 0)] with
  | none => none
  | some visited =>
    let far := farTiles visited minDistance
    if far = [] then
      match maxBySnd visited with
      | some farthest => some farthest.1
      | none => none
    else some (far.getD (choice % far.length) (px, py))

theorem Adj.ne {p q : Int × Int} (h : Adj p q) : q ≠ p := by
  obtain ⟨d, hd, rfl⟩ := h
  simp only [directions, List.mem_cons, List.not_mem_nil, or_false] at hd
  rcases hd with rfl | rfl | rfl | rfl <;> simp [Prod.ext_iff]

/-- Invariant of the strategic-exit BFS: dict entries are the player's own
`(p, 0)` or floor cells at positive distance reachable from `p`; the queue
holds undischarged dict entries; fully processed cells have all their floor
neighbours in the dict. -/
structure StratInv (m : Map) (p : Int × Int)
    (q v : List ((Int × Int) × Nat)) : Prop where
  entries : ∀ e ∈ v, e = (p, 0) ∨
    (1 ≤ e.2 ∧ m.is_floor e.1.1 e.1.2 = true ∧ e.1 ≠ p ∧ ∃ n, Reach m p e.1 n)
  key0 : (p, 0) ∈ v
  q_sub : ∀ e ∈ q, e ∈ v
  nodup_qkeys : (q.map Prod.fst).Nodup
  closed : ∀ e ∈ v, e.1 ∉ q.map Prod.fst →
    ∀ c', Adj e.1 c' → m.is_floor c'.1 c'.2 = true → c' ∈ v.map Prod.fst

theorem StratInv.strat_preserved {m : Map} {p c0 : Int × Int} {d0 : Nat}
    {rest v : List ((Int × Int) × Nat)}
    (inv : StratInv m p ((c0, d0) :: rest) v) :
    StratInv m p (stratExpand m c0.1 c0.2 d0 (rest, v)).1
      (stratExpand m c0.1 c0.2 d0 (rest, v)).2 := by
  obtain ⟨new, h1, h2, hnodup, hprops, hcomplete⟩ := stratExpand_spec m c0.1 c0.2 d0 rest v
  have hc0 : ((c0.1, c0.2) : Int × Int) = c0 := rfl
  rw [hc0] at hprops hcomplete
  have hkeys : ((stratExpand m c0.1 c0.2 d0 (rest, v)).2).map Prod.fst =
      v.map Prod.fst ++ new := by
    rw [h2, List.map_append, List.map_map]
    simp [Function.comp_def]
  have hqkeys : ((stratExpand m c0.1 c0.2 d0 (rest, v)).1).map Prod.fst =
      rest.map Prod.fst ++ new := by
    rw [h1, List.map_append, List.map_map]
    simp [Function.comp_def]
  have hpkey : p ∈ v.map Prod.fst := List.mem_map.2 ⟨(p, 0), inv.key0, rfl⟩
  have hc0reach : ∃ n, Reach m p c0 n := by
    have hmem := inv.q_sub _ (List.mem_cons_self _ _)
    rcases inv.entries _ hmem with h | h
    · exact ⟨0, by rw [show c0 = p from congrArg Prod.fst h]; exact Reach.refl _⟩
    · exact h.2.2.2
  have hnew_good : ∀ c ∈ new, m.is_floor c.1 c.2 = true ∧ c ≠ p ∧ ∃ n, Reach m p c n := by
    intro c hc
    obtain ⟨hadj, hfl, hnv⟩ := hprops _ hc
    obtain ⟨n, hn⟩ := hc0reach
    exact ⟨hfl, fun h => hnv (h ▸ hpkey), ⟨n + 1, Reach.step hn hadj hfl⟩⟩
  constructor
  case entries =>
    rw [h2]
    intro e he
    rcases List.mem_append.1 he with he' | he'
    · exact inv.entries _ he'
    · obtain ⟨c, hc, rfl⟩ := List.mem_map.1 he'
      obtain ⟨hfl, hne, hr⟩ := hnew_good _ hc
      exact Or.inr ⟨Nat.le_add_left _ _, hfl, hne, hr⟩
  case key0 =>
    rw [h2]
    exact List.mem_append_left _ inv.key0
  case q_sub =>
    rw [h1, h2]
    intro e he
    rcases List.mem_append.1 he with he' | he'
    · exact List.mem_append_left _ (inv.q_sub _ (List.mem_cons_of_mem _ he'))
    · exact List.mem_append_right _ he'
  case nodup_qkeys =>
    rw [hqkeys]
    refine List.nodup_append.2 ⟨?_, hnodup, ?_⟩
    · have := inv.nodup_qkeys
      simp only [List.map_cons] at this
      exact this.of_cons
    · intro a ha1 ha2
      obtain ⟨e, he, rfl⟩ := List.mem_map.1 ha1
      have : e.1 ∈ v.map Prod.fst :=
        List.mem_map.2 ⟨e, inv.q_sub _ (List.mem_cons_of_mem _ he), rfl⟩
      exact (hprops _ ha2).2.2 this
  case closed =>
    have hkeys' : (v ++ List.map (fun c => (c, d0 + 1)) new).map Prod.fst =
        v.map Prod.fst ++ new := by
      rw [List.map_append, List.map_map]
      simp [Function.comp_def]
    rw [h2, hqkeys, hkeys']
    intro e he hnq c' hadj hfl
    rcases List.mem_append.1 he with hev | henew
    · by_cases hq : e.1 ∈ ((c0, d0) :: rest).map Prod.fst
      · simp only [List.map_cons] at hq
        rcases List.mem_cons.1 hq with h | h
        · rw [h] at hadj
          rcases hcomplete c' hadj hfl with hv | hnew'
          · exact List.mem_append_left _ hv
          · exact List.mem_append_right _ hnew'
        · exact absurd (List.mem_append_left _ h) hnq
      · have hq' : e.1 ∉ ((c0, d0) :: rest).map Prod.fst := hq
        exact List.mem_append_left _ (inv.closed _ hev hq' c' hadj hfl)
    · exfalso
      obtain ⟨c, hc, rfl⟩ := List.mem_map.1 henew
      exact hnq (List.mem_append_right _ hc)

theorem stratInv_init (m : Map) (p : Int × Int) :
    StratInv m p [(p, 0)] [(p, 0)] := by
  constructor
  case entries =>
    intro e he
    exact Or.inl (List.mem_singleton.1 he)
  case key0 => exact List.mem_singleton.2 rfl
  case q_sub => intro e he; exact he
  case nodup_qkeys => simp
  case closed =>
    intro e he hnq
    exfalso
    refine hnq ?_
    rw [List.mem_singleton.1 he]
    simp

theorem stratLoop_inv (m : Map) (p : Int × Int) :
    ∀ (fuel : Nat) (q v : List ((Int × Int) × Nat)), StratInv m p q v →
      ∀ out, stratLoop m fuel q v = some out → StratInv m p [] out := by
  intro fuel
  induction fuel with
  | zero =>
    intro q v inv out hout
    match q, hout with
    | [], hout =>
      have : v = out := by simpa [stratLoop] using hout
      exact this ▸ inv
    | e :: rest, hout => exact absurd hout (by simp [stratLoop])
  | succ fuel ih =>
    intro q v inv out hout
    match q, hout with
    | [], hout =>
      have : v = out := by simpa [stratLoop] using hout
      exact this ▸ inv
    | (c0, d0) :: rest, hout =>
      rw [stratLoop] at hout
      exact ih _ _ inv.strat_preserved out hout

theorem maxBySnd_spec :
    ∀ (l : List ((Int × Int) × Nat)) (b : (Int × Int) × Nat),
      maxBySnd l = some b → b ∈ l ∧ ∀ e ∈ l, e.2 ≤ b.2 := by
  have hfold : ∀ (rest : List ((Int × Int) × Nat)) (e : (Int × Int) × Nat),
      (rest.foldl (fun best f => if best.2 < f.2 then f else best) e) ∈ e :: rest ∧
      e.2 ≤ (rest.foldl (fun best f => if best.2 < f.2 then f else best) e).2 ∧
      ∀ x ∈ rest, x.2 ≤ (rest.foldl (fun best f => if best.2 < f.2 then f else best) e).2 := by
    intro rest
    induction rest with
    | nil => intro e; exact ⟨List.mem_singleton.2 rfl, le_refl _, by simp⟩
    | cons f rest ih =>
      intro e
      simp only [List.foldl_cons]
      obtain ⟨hmem, hle, hall⟩ := ih (if e.2 < f.2 then f else e)
      have hbound : e.2 ≤ (if e.2 < f.2 then f else e).2 ∧
          f.2 ≤ (if e.2 < f.2 then f else e).2 := by
        by_cases h : e.2 < f.2 <;> simp [h] <;> omega
      refine ⟨?_, le_trans hbound.1 hle, ?_⟩
      · rcases List.mem_cons.1 hmem with h | h
        · rw [h]
          by_cases hc : e.2 < f.2
          · simp only [hc, if_true]
            exact List.mem_cons_of_mem _ (List.mem_cons_self _ _)
          · simp only [hc, if_false]
            exact List.mem_cons_self _ _
        · exact List.mem_cons_of_mem _ (List.mem_cons_of_mem _ h)
      · intro x hx
        rcases List.mem_cons.1 hx with rfl | hx'
        · exact le_trans hbound.2 hle
        · exact hall _ hx'
  intro l b hb
  match l, hb with
  | e :: rest, hb =>
    have hb' : rest.foldl (fun best f => if best.2 < f.2 then f else best) e = b := by
      simpa [maxBySnd] using hb
    obtain ⟨hmem, hle, hall⟩ := hfold rest e
    rw [hb'] at hmem hle hall
    refine ⟨hmem, ?_⟩
    intro x hx
    rcases List.mem_cons.1 hx with rfl | hx'
    · exact hle
    · exact hall _ hx'

/-- Counterexample to **C3** as stated: on the all-wall 1×1 map the function
returns the player's own coordinate `(0,0)`, which is not even a floor
cell. -/
theorem find_strategic_exit_returns_player :
    find_strategic_exit_position (Map.init 1 1) 0 0 15 0 = some (0, 0) ∧
    (Map.init 1 1).is_floor 0 0 = false := by
  exact ⟨by decide, by decide⟩

/-- **C3 (amended).** Whenever `min_distance ≥ 1` and the player has at
least one adjacent floor cell, `find_strategic_exit_position` returns a
coordinate distinct from the player's that is a floor cell reachable from
the player through floor cells. -/
theorem find_strategic_exit_valid (m : Map) (px py minDistance : Int) (choice : Nat)
    (hmin : 1 ≤ minDistance)
    (hnbr : ∃ c, Adj (px, py) c ∧ m.is_floor c.1 c.2 = true) :
    ∃ c, find_strategic_exit_position m px py minDistance choice = some c ∧
      c ≠ (px, py) ∧ m.is_floor c.1 c.2 = true ∧ ∃ n, Reach m (px, py) c n := by
  have hmeas : stratMeasure m [(((px, py) : Int × Int), 0)] [(((px, py) : Int × Int), 0)] ≤
      bfsFuel m := by
    have h1 : ((inBoundsFinset m) \
        (([(((px, py) : Int × Int), 0)] : List ((Int × Int) × Nat)).map
          Prod.fst).toFinset).card ≤ (inBoundsFinset m).card :=
      Finset.card_le_card (Finset.sdiff_subset)
    have h2 := inBoundsFinset_card_le m
    simp only [stratMeasure, bfsFuel, List.length_singleton]
    omega
  obtain ⟨out, hout⟩ := Option.isSome_iff_exists.1 (stratLoop_isSome m (bfsFuel m) _ _ hmeas)
  have fin := stratLoop_inv m (px, py) (bfsFuel m) _ _ (stratInv_init m (px, py)) out hout
  obtain ⟨c0, hadj0, hfl0⟩ := hnbr
  have hc0key : c0 ∈ out.map Prod.fst :=
    fin.closed _ fin.key0 (by simp) c0 hadj0 hfl0
  obtain ⟨e0, he0, he0c⟩ := List.mem_map.1 hc0key
  have he0good : 1 ≤ e0.2 := by
    rcases fin.entries _ he0 with h | h
    · exfalso
      have : e0.1 = (px, py) := by rw [h]
      rw [this] at he0c
      exact hadj0.ne he0c.symm
    · exact h.1
  simp only [find_strategic_exit_position, hout]
  by_cases hfar : farTiles out minDistance = []
  · rw [if_pos hfar]
    have hout_ne : out ≠ [] := fun h => by
      have := fin.key0
      rw [h] at this
      exact absurd this (List.not_mem_nil _)
    obtain ⟨e1, rest1, hcons⟩ := List.exists_cons_of_ne_nil hout_ne
    have hmax : ∃ b, maxBySnd out = some b := by
      rw [hcons]
      exact ⟨_, rfl⟩
    obtain ⟨b, hb⟩ := hmax
    obtain ⟨hbmem, hbmax⟩ := maxBySnd_spec out b hb
    have hb2 : 1 ≤ b.2 := le_trans he0good (hbmax _ he0)
    have hbgood := fin.entries _ hbmem
    rcases hbgood with h | h
    · exfalso
      have : b.2 = 0 := by rw [h]
      omega
    · rw [hb]
      exact ⟨b.1, rfl, h.2.2.1, h.2.1, h.2.2.2⟩
  · rw [if_neg hfar]
    have hlen : 0 < (farTiles out minDistance).length :=
      List.length_pos.2 hfar
    have hidx : choice % (farTiles out minDistance).length <
        (farTiles out minDistance).length := Nat.mod_lt _ hlen
    have hchosen : (farTiles out minDistance).getD
        (choice % (farTiles out minDistance).length) (px, py) ∈
        farTiles out minDistance := by
      rw [List.getD_eq_getElem _ _ hidx]
      exact List.getElem_mem _
    obtain ⟨e, hemem, hechosen⟩ := List.mem_map.1 hchosen
    have hefil := List.mem_filter.1 hemem
    have hed : minDistance ≤ (e.2 : Int) := by
      have := hefil.2
      simpa using this
    have hegood : 1 ≤ e.2 := by
      rcases fin.entries _ hefil.1 with h | h
      · exfalso
        have : e.2 = 0 := by rw [h]
        omega
      · exact h.1
    rcases fin.entries _ hefil.1 with h | h
    · exfalso
      have : e.2 = 0 := by rw [h]
      omega
    · exact ⟨_, rfl, hechosen ▸ h.2.2.1, hechosen ▸ h.2.1, hechosen ▸ h.2.2.2⟩

/-- Witness for the amended C3 on the plus map. -/
theorem find_strategic_exit_valid_witness :
    ∃ c, find_strategic_exit_position plusMap 2 2 1 0 = some c ∧
      c ≠ (2, 2) ∧ plusMap.is_floor c.1 c.2 = true ∧ ∃ n, Reach plusMap (2, 2) c n :=
  find_strategic_exit_valid plusMap 2 2 1 0 (by norm_num)
    ⟨(2, 3), ⟨(0, 1), by simp [directions], by norm_num⟩, by decide⟩

/-- **C4 (code bug).** On the all-wall 3×3 map the player at `(1,1)` is
isolated — the BFS distance map holds only the player — yet the function
returns the player's own coordinate instead of the absent result `none`:
the `return None` branch is dead code because the player is unconditionally
inserted into `visited`. -/
theorem find_strategic_exit_isolated_player :
    find_strategic_exit_position (Map.init 3 3) 1 1 15 0 = some (1, 1) := by
  decide

/-! ## `CavernGenerator._smooth` -/

/-- Well-formedness of the cell buffer: row count and row lengths match the
declared dimensions (true of every map the program constructs). -/
def Map.WF (m : Map) : Prop :=
  m.grid.length = m.height ∧ ∀ row ∈ m.grid, row.length = m.width

theorem Map.WF.init (width height : Nat) : (Map.init width height).WF := by
  constructor
  · simp [Map.init]
  · intro row hrow
    simp only [Map.init, List.mem_replicate] at hrow
    rw [hrow.2]
    simp [Map.init]

theorem Map.WF.set_cell {m : Map} (hwf : m.WF) (x y : Int) (c : Char) :
    (m.set_cell x y c).WF := by
  unfold Map.set_cell
  split
  · constructor
    · simp [hwf.1]
    · intro row hrow
      rcases List.mem_or_eq_of_mem_set hrow with h | h
      · exact hwf.2 _ h
      · rename_i hin
        have hlen : y.toNat < m.grid.length := by
          have := hwf.1
          have h1 : (0:Int) ≤ y := hin.1
          have h2 : y < (m.height : Int) := hin.2.1
          omega
        have hmem : m.grid.getD y.toNat [] ∈ m.grid := by
          rw [List.getD_eq_getElem _ _ hlen]
          exact List.getElem_mem _
        rw [h, List.length_set]
        exact hwf.2 _ hmem
  · exact hwf

theorem Map.width_set_cell (m : Map) (x y : Int) (c : Char) :
    (m.set_cell x y c).width = m.width := by
  unfold Map.set_cell
  split <;> rfl

theorem Map.height_set_cell (m : Map) (x y : Int) (c : Char) :
    (m.set_cell x y c).height = m.height := by
  unfold Map.set_cell
  split <;> rfl

theorem Map.inRange_set_cell (m : Map) (a b x y : Int) (c : Char) :
    (m.set_cell a b c).inRange x y ↔ m.inRange x y := by
  unfold Map.inRange
  rw [Map.width_set_cell, Map.height_set_cell]

/-- Reading after writing: an in-range write is observed exactly at its own
coordinate; everything else is untouched. -/
theorem Map.get_set_cell {m : Map} (hwf : m.WF) (a b x y : Int) (c : Char) :
    (m.set_cell a b c).get_cell x y =
      if x = a ∧ y = b ∧ m.inRange a b then c else m.get_cell x y := by
  by_cases hab : m.inRange a b
  · have hblen : b.toNat < m.grid.length := by
      have := hwf.1
      have h1 : (0:Int) ≤ b := hab.1
      have h2 : b < (m.height : Int) := hab.2.1
      omega
    have hrowmem : m.grid.getD b.toNat [] ∈ m.grid := by
      rw [List.getD_eq_getElem _ _ hblen]
      exact List.getElem_mem _
    have hrowlen : (m.grid.getD b.toNat []).length = m.width := hwf.2 _ hrowmem
    have hgrid : (m.set_cell a b c).grid =
        m.grid.set b.toNat ((m.grid.getD b.toNat []).set a.toNat c) := by
      unfold Map.set_cell
      rw [if_pos hab]
    by_cases hxy : m.inRange x y
    · have hxy2 : (m.set_cell a b c).inRange x y := (Map.inRange_set_cell m a b x y c).2 hxy
      have hL : (m.set_cell a b c).get_cell x y =
          ((m.set_cell a b c).grid.getD y.toNat []).getD x.toNat '#' := by
        unfold Map.get_cell
        rw [if_pos hxy2]
      have hR : m.get_cell x y = (m.grid.getD y.toNat []).getD x.toNat '#' := by
        unfold Map.get_cell
        rw [if_pos hxy]
      rw [hL, hgrid, hR]
      by_cases hyb : y = b
      · subst hyb
        have hrowset : (m.grid.set y.toNat ((m.grid.getD y.toNat []).set a.toNat c)).getD
            y.toNat [] = (m.grid.getD y.toNat []).set a.toNat c := by
          rw [List.getD_eq_getElem _ _ (by rw [List.length_set]; exact hblen)]
          exact List.getElem_set_self _
        rw [hrowset]
        by_cases hxa : x = a
        · rw [if_pos ⟨hxa, rfl, hab⟩]
          subst hxa
          have halen : x.toNat < (m.grid.getD y.toNat []).length := by
            have h1 : (0:Int) ≤ x := hab.2.2.1
            have h2 : x < (m.width : Int) := hab.2.2.2
            omega
          rw [List.getD_eq_getElem _ _ (by rw [List.length_set]; exact halen)]
          exact List.getElem_set_self _
        · rw [if_neg (fun h => hxa h.1)]
          have hne : a.toNat ≠ x.toNat := by
            have h1 : (0:Int) ≤ x := hxy.2.2.1
            have h2 : (0:Int) ≤ a := hab.2.2.1
            omega
          by_cases hxlen : x.toNat < (m.grid.getD y.toNat []).length
          · rw [List.getD_eq_getElem _ _ (by rw [List.length_set]; exact hxlen),
              List.getD_eq_getElem _ _ hxlen]
            exact List.getElem_set_ne hne _
          · rw [List.getD_eq_default _ _ (by rw [List.length_set]; omega),
              List.getD_eq_default _ _ (by omega)]
      · rw [if_neg (fun h => hyb h.2.1)]
        have hne : b.toNat ≠ y.toNat := by
          have h1 : (0:Int) ≤ y := hxy.1
          have h2 : (0:Int) ≤ b := hab.1
          omega
        have hylen : y.toNat < m.grid.length := by
          have := hwf.1
          have h1 : (0:Int) ≤ y := hxy.1
          have h2 : y < (m.height : Int) := hxy.2.1
          omega
        have hrows : (m.grid.set b.toNat ((m.grid.getD b.toNat []).set a.toNat c)).getD
            y.toNat [] = m.grid.getD y.toNat [] := by
          rw [List.getD_eq_getElem _ _ (by rw [List.length_set]; exact hylen),
            List.getD_eq_getElem _ _ hylen]
          exact List.getElem_set_ne hne _
        rw [hrows]
    · have hxy2 : ¬ (m.set_cell a b c).inRange x y :=
        fun h => hxy ((Map.inRange_set_cell m a b x y c).1 h)
      have hL : (m.set_cell a b c).get_cell x y = '#' := by
        unfold Map.get_cell
        rw [if_neg hxy2]
      have hR : m.get_cell x y = '#' := by
        unfold Map.get_cell
        rw [if_neg hxy]
      rw [hL, hR, if_neg (fun h => hxy (by rw [h.1, h.2.1]; exact hab))]
  · unfold Map.set_cell
    rw [if_neg hab, if_neg (fun h => hab h.2.2)]

/-- The interior coordinates scanned by the smoothing pass, in loop order
(`y` from `1` to `height-2` outer, `x` inner). -/
def interiorPairs (w h : Nat) : List (Int × Int) :=
  (List.range (h - 2)).flatMap (fun (j : Nat) =>
    (List.range (w - 2)).map (fun (i : Nat) => ((i : Int) + 1, (j : Int) + 1)))

theorem mem_interiorPairs (w h : Nat) (x y : Int) :
    (x, y) ∈ interiorPairs w h ↔
      1 ≤ x ∧ x ≤ (w : Int) - 2 ∧ 1 ≤ y ∧ y ≤ (h : Int) - 2 := by
  constructor
  · intro hmem
    obtain ⟨j, hj, hmem2⟩ := List.mem_flatMap.1 hmem
    obtain ⟨i, hi, heq⟩ := List.mem_map.1 hmem2
    rw [List.mem_range] at hj hi
    have hx : (i : Int) + 1 = x := congrArg Prod.fst heq
    have hy : (j : Int) + 1 = y := congrArg Prod.snd heq
    omega
  · rintro ⟨h1, h2, h3, h4⟩
    refine List.mem_flatMap.2 ⟨(y - 1).toNat, ?_, ?_⟩
    · rw [List.mem_range]; omega
    · refine List.mem_map.2 ⟨(x - 1).toNat, ?_, ?_⟩
      · rw [List.mem_range]; omega
      · exact Prod.ext (by omega) (by omega)

theorem interiorPairs_nodup (w h : Nat) : (interiorPairs w h).Nodup := by
  refine List.nodup_flatMap.2 ⟨?_, ?_⟩
  · intro j _
    refine List.Nodup.map ?_ (List.nodup_range (w - 2))
    intro a b hab
    have := congrArg Prod.fst hab
    simp only at this
    omega
  · have hlt := List.pairwise_lt_range (h - 2)
    refine hlt.imp ?_
    intro a b hab p hpa hpb
    obtain ⟨i, hi, rfl⟩ := List.mem_map.1 hpa
    obtain ⟨i', hi', hpe⟩ := List.mem_map.1 hpb
    have := congrArg Prod.snd hpe
    simp only at this
    omega

/-- The value the smoothing rules assign to an interior cell, read entirely
from the pre-pass map `m`. -/
def smoothValue (m : Map) (x y : Int) : Char :=
  if m.is_wall x y = true then
    (if m.count_wall_neighbors x y ≤ 4 then '.' else m.get_cell x y)
  else
    (if 5 ≤ m.count_wall_neighbors x y then '#' else m.get_cell x y)

/-- The write performed for one interior cell of the smoothing pass: the
rules are evaluated on the pre-pass map `m`, the write goes to the
accumulating new grid `acc`. -/
def smoothStep (m acc : Map) (p : Int × Int) : Map :=
  if m.is_wall p.1 p.2 = true then
    (if m.count_wall_neighbors p.1 p.2 ≤ 4 then acc.set_cell p.1 p.2 '.' else acc)
  else
    (if 5 ≤ m.count_wall_neighbors p.1 p.2 then acc.set_cell p.1 p.2 '#' else acc)

/-- One iteration of `CavernGenerator._smooth`: all reads go to the pre-pass
map `m` (the `new_grid` copy receives only the writes), so the fold carries
the accumulating new grid while every rule evaluation uses `m`. -/
def Map.smooth (m : Map) : Map :=
  (interiorPairs m.width m.height).foldl (smoothStep m) m

theorem smooth_foldl_spec (m : Map) :
    ∀ (ps : List (Int × Int)) (acc : Map), acc.WF →
      acc.width = m.width → acc.height = m.height →
      ps.Nodup →
      (∀ p ∈ ps, m.inRange p.1 p.2) →
      (∀ p ∈ ps, acc.get_cell p.1 p.2 = m.get_cell p.1 p.2) →
      (ps.foldl (smoothStep m) acc).WF ∧
      (ps.foldl (smoothStep m) acc).width = m.width ∧
      (ps.foldl (smoothStep m) acc).height = m.height ∧
      ∀ x y : Int, (ps.foldl (smoothStep m) acc).get_cell x y =
        if (x, y) ∈ ps then smoothValue m x y else acc.get_cell x y := by
  intro ps
  induction ps with
  | nil =>
    intro acc hwf hw hh _ _ _
    exact ⟨hwf, hw, hh, fun x y => by simp⟩
  | cons p ps ih =>
    intro acc hwf hw hh hnodup hin hagree
    have hpin : m.inRange p.1 p.2 := hin _ (List.mem_cons_self _ _)
    have hpin' : acc.inRange p.1 p.2 := by
      unfold Map.inRange at hpin ⊢
      rw [hw, hh]
      exact hpin
    have hwf' : (smoothStep m acc p).WF := by
      unfold smoothStep
      split <;> split <;> first | exact hwf.set_cell _ _ _ | exact hwf
    have hw' : (smoothStep m acc p).width = m.width := by
      unfold smoothStep
      split <;> split <;> simp [Map.width_set_cell, hw]
    have hh' : (smoothStep m acc p).height = m.height := by
      unfold smoothStep
      split <;> split <;> simp [Map.height_set_cell, hh]
    have hget' : ∀ x y : Int, (smoothStep m acc p).get_cell x y =
        if x = p.1 ∧ y = p.2 then smoothValue m p.1 p.2 else acc.get_cell x y := by
      intro x y
      unfold smoothStep smoothValue
      by_cases h1 : m.is_wall p.1 p.2 = true
      · rw [if_pos h1, if_pos h1]
        by_cases h2 : m.count_wall_neighbors p.1 p.2 ≤ 4
        · rw [if_pos h2, if_pos h2, Map.get_set_cell hwf]
          by_cases h3 : x = p.1 ∧ y = p.2
          · rw [if_pos ⟨h3.1, h3.2, hpin'⟩, if_pos h3]
          · rw [if_neg (by intro h; exact h3 ⟨h.1, h.2.1⟩), if_neg h3]
        · rw [if_neg h2, if_neg h2]
          by_cases h3 : x = p.1 ∧ y = p.2
          · rw [if_pos h3, h3.1, h3.2]
            exact hagree _ (List.mem_cons_self _ _)
          · rw [if_neg h3]
      · rw [if_neg h1, if_neg h1]
        by_cases h2 : 5 ≤ m.count_wall_neighbors p.1 p.2
        · rw [if_pos h2, if_pos h2, Map.get_set_cell hwf]
          by_cases h3 : x = p.1 ∧ y = p.2
          · rw [if_pos ⟨h3.1, h3.2, hpin'⟩, if_pos h3]
          · rw [if_neg (by intro h; exact h3 ⟨h.1, h.2.1⟩), if_neg h3]
        · rw [if_neg h2, if_neg h2]
          by_cases h3 : x = p.1 ∧ y = p.2
          · rw [if_pos h3, h3.1, h3.2]
            exact hagree _ (List.mem_cons_self _ _)
          · rw [if_neg h3]
    have hpnotin : p ∉ ps := (List.nodup_cons.1 hnodup).1
    have hagree' : ∀ q ∈ ps, (smoothStep m acc p).get_cell q.1 q.2 = m.get_cell q.1 q.2 := by
      intro q hq
      rw [hget']
      rw [if_neg ?_]
      · exact hagree _ (List.mem_cons_of_mem _ hq)
      · intro h
        have : q = p := Prod.ext h.1 h.2
        exact hpnotin (this ▸ hq)
    obtain ⟨rwf, rw', rh', rget⟩ := ih (smoothStep m acc p) hwf' hw' hh'
      (List.nodup_cons.1 hnodup).2
      (fun q hq => hin _ (List.mem_cons_of_mem _ hq)) hagree'
    simp only [List.foldl_cons]
    refine ⟨rwf, rw', rh', ?_⟩
    intro x y
    rw [rget x y, hget']
    by_cases hx1 : (x, y) ∈ ps
    · rw [if_pos hx1, if_pos (List.mem_cons_of_mem _ hx1)]
    · rw [if_neg hx1]
      by_cases hx2 : x = p.1 ∧ y = p.2
      · have hxp : (x, y) = p := Prod.ext hx2.1 hx2.2
        rw [if_pos hx2, if_pos (hxp ▸ List.mem_cons_self p ps), hx2.1, hx2.2]
      · rw [if_neg hx2, if_neg ?_]
        intro h
        rcases List.mem_cons.1 h with h' | h'
        · exact hx2 ⟨congrArg Prod.fst h', congrArg Prod.snd h'⟩
        · exact hx1 h'

theorem Map.is_floor_not_wall {m : Map} {x y : Int}
    (h : m.is_floor x y = true) : m.is_wall x y = false := by
  simp only [Map.is_floor, beq_iff_eq] at h
  simp [Map.is_wall, h]

/-- **C6.** One smoothing pass reads every rule input from the pre-pass map
(`m` everywhere on the right-hand sides below — snapshot semantics) and, for
each interior cell with `n` wall neighbours in its 3×3 neighbourhood
(out-of-bounds counts as wall): a wall with `n ≤ 4` becomes floor, a floor
with `n ≥ 5` becomes wall, everything else — including every border cell —
is unchanged. -/
theorem smooth_pass_correct (m : Map) (hwf : m.WF) :
    (∀ x y : Int, 1 ≤ x → x ≤ (m.width : Int) - 2 → 1 ≤ y → y ≤ (m.height : Int) - 2 →
      (m.is_wall x y = true → m.count_wall_neighbors x y ≤ 4 →
        m.smooth.get_cell x y = '.') ∧
      (m.is_floor x y = true → 5 ≤ m.count_wall_neighbors x y →
        m.smooth.get_cell x y = '#') ∧
      (m.is_wall x y = true → ¬ m.count_wall_neighbors x y ≤ 4 →
        m.smooth.get_cell x y = m.get_cell x y) ∧
      (m.is_floor x y = true → ¬ 5 ≤ m.count_wall_neighbors x y →
        m.smooth.get_cell x y = m.get_cell x y)) ∧
    (∀ x y : Int, ¬ (1 ≤ x ∧ x ≤ (m.width : Int) - 2 ∧ 1 ≤ y ∧ y ≤ (m.height : Int) - 2) →
      m.smooth.get_cell x y = m.get_cell x y) := by
  obtain ⟨_, _, _, rget⟩ := smooth_foldl_spec m (interiorPairs m.width m.height) m
    hwf rfl rfl (interiorPairs_nodup _ _)
    (by
      intro p hp
      have := (mem_interiorPairs m.width m.height p.1 p.2).1 (by
        have : ((p.1, p.2) : Int × Int) = p := rfl
        rw [this]
        exact hp)
      unfold Map.inRange
      omega)
    (fun p _ => rfl)
  have hsm : ∀ x y : Int, m.smooth.get_cell x y =
      if (x, y) ∈ interiorPairs m.width m.height then smoothValue m x y
      else m.get_cell x y := by
    intro x y
    exact rget x y
  constructor
  · intro x y h1 h2 h3 h4
    have hmem : (x, y) ∈ interiorPairs m.width m.height :=
      (mem_interiorPairs m.width m.height x y).2 ⟨h1, h2, h3, h4⟩
    have hval : m.smooth.get_cell x y = smoothValue m x y := by
      rw [hsm x y, if_pos hmem]
    refine ⟨?_, ?_, ?_, ?_⟩
    · intro hwall hcnt
      rw [hval]
      unfold smoothValue
      rw [if_pos hwall, if_pos hcnt]
    · intro hfl hcnt
      rw [hval]
      unfold smoothValue
      rw [if_neg (by rw [Map.is_floor_not_wall hfl]; exact Bool.false_ne_true), if_pos hcnt]
    · intro hwall hcnt
      rw [hval]
      unfold smoothValue
      rw [if_pos hwall, if_neg hcnt]
    · intro hfl hcnt
      rw [hval]
      unfold smoothValue
      rw [if_neg (by rw [Map.is_floor_not_wall hfl]; exact Bool.false_ne_true), if_neg hcnt]
  · intro x y hni
    rw [hsm x y, if_neg ?_]
    intro hmem
    exact hni ((mem_interiorPairs m.width m.height x y).1 hmem)

/-- Witness for C6 on the plus map: the centre `(2,2)` (floor, 4 wall
neighbours) is unchanged, the arm tip `(2,1)` (floor, 5 wall neighbours)
becomes wall. -/
theorem smooth_pass_correct_witness :
    plusMap.smooth.get_cell 2 2 = plusMap.get_cell 2 2 ∧
    plusMap.smooth.get_cell 2 1 = '#' := by
  have h := smooth_pass_correct plusMap ⟨by decide, by decide⟩
  exact ⟨(h.1 2 2 (by norm_num) (by decide) (by norm_num) (by decide)).2.2.2
      (by decide) (by decide),
    (h.1 2 1 (by norm_num) (by decide) (by norm_num) (by decide)).2.1
      (by decide) (by decide)⟩

/-! ## `DungeonGenerator` -/

/-- The ±2 carving directions of the dungeon DFS (up, down, left, right). -/
def dungeonDirections : List (Int × Int) := [(0, -2), (0, 2), (-2, 0), (2, 0)]

/-- The valid-neighbour scan of one DFS iteration: candidates two cells away
that are in bounds and unvisited, paired with their direction. -/
def dfsNeighbors (m : Map) (visited : List (Int × Int)) (x y : Int) :
    List ((Int × Int) × (Int × Int)) :=
  dungeonDirections.filterMap (fun d =>
    let nx := x + d.1
    let ny := y + d.2
    if m.in_bounds nx ny = true ∧ (nx, ny) ∉ visited then some ((nx, ny), d) else none)

/-- DFS loop state: the map being carved, the explicit stack (head = top),
the visited set and the number of `random.choice` calls made so far. -/
def DfsState : Type := Map × List (Int × Int) × List (Int × Int) × Nat

/-- The `while stack:` loop of `DungeonGenerator.generate`, with fuel.
`choice` models `random.choice`: call `i` picks index `choice i` modulo the
candidate count. -/
def dfsLoop : Nat → DfsState → (Nat → Nat) → Option Map
  | _, (m, [], _, _), _ => some m
  | 0, (_, _ :: _, _, _), _ => none
  | fuel + 1, (m, c :: stack, v, ctr), choice =>
    let ns := dfsNeighbors m v c.1 c.2
    if ns = [] then dfsLoop fuel (m, stack, v, ctr) choice
    else
      let chosen := ns.getD (choice ctr % ns.length) ((0, 0), (0, 0))
      dfsLoop fuel
        ((m.set_cell (c.1 + chosen.2.1 / 2) (c.2 + chosen.2.2 / 2) '.').set_cell
            chosen.1.1 chosen.1.2 '.',
          chosen.1 :: c :: stack, v ++ [chosen.1], ctr + 1) choice

/-- Termination measure of the DFS loop. -/
def dfsMeasure (m : Map) (stack v : List (Int × Int)) : Nat :=
  2 * ((inBoundsFinset m) \ v.toFinset).card + stack.length

/-- Fuel with which `dungeon_generate` runs its loop; always enough. -/
def dfsFuel (w h : Nat) : Nat :=
  2 * (w * h) + 2

theorem mem_dfsNeighbors (m : Map) (visited : List (Int × Int)) (x y : Int)
    (e : (Int × Int) × (Int × Int)) :
    e ∈ dfsNeighbors m visited x y ↔
      e.2 ∈ dungeonDirections ∧ e.1 = (x + e.2.1, y + e.2.2) ∧
      m.in_bounds e.1.1 e.1.2 = true ∧ e.1 ∉ visited := by
  constructor
  · intro h
    obtain ⟨d, hd, hde⟩ := List.mem_filterMap.1 h
    simp only at hde
    by_cases hc : m.in_bounds (x + d.1) (y + d.2) = true ∧ (x + d.1, y + d.2) ∉ visited
    · rw [if_pos hc] at hde
      have he := Option.some.inj hde
      subst he
      exact ⟨hd, rfl, hc.1, hc.2⟩
    · rw [if_neg hc] at hde
      exact absurd hde (by simp)
  · rintro ⟨hd, he1, hb, hnv⟩
    refine List.mem_filterMap.2 ⟨e.2, hd, ?_⟩
    simp only
    have hx : e.1.1 = x + e.2.1 := congrArg Prod.fst he1
    have hy : e.1.2 = y + e.2.2 := congrArg Prod.snd he1
    rw [if_pos ⟨by rw [← hx, ← hy]; exact hb, by rw [← he1]; exact hnv⟩, ← he1]

/-- The state edit of one carving iteration strictly decreases the measure. -/
theorem dfsLoop_isSome (choice : Nat → Nat) :
    ∀ (fuel : Nat) (m : Map) (stack v : List (Int × Int)) (ctr : Nat),
      dfsMeasure m stack v ≤ fuel →
      (dfsLoop fuel (m, stack, v, ctr) choice).isSome = true := by
  intro fuel
  induction fuel with
  | zero =>
    intro m stack v ctr hm
    match stack with
    | [] => rfl
    | c :: rest =>
      exfalso
      simp [dfsMeasure] at hm
  | succ fuel ih =>
    intro m stack v ctr hm
    match stack with
    | [] => rfl
    | c :: rest =>
      rw [dfsLoop]
      by_cases hns : dfsNeighbors m v c.1 c.2 = []
      · rw [if_pos hns]
        refine ih m rest v ctr ?_
        simp only [dfsMeasure, List.length_cons] at hm ⊢
        omega
      · rw [if_neg hns]
        set ns := dfsNeighbors m v c.1 c.2 with hns_def
        set chosen := ns.getD (choice ctr % ns.length) ((0, 0), (0, 0)) with hchosen
        have hlen : choice ctr % ns.length < ns.length :=
          Nat.mod_lt _ (List.length_pos.2 hns)
        have hmem : chosen ∈ ns := by
          rw [hchosen, List.getD_eq_getElem _ _ hlen]
          exact List.getElem_mem _
        obtain ⟨_, _, hb, hnv⟩ := (mem_dfsNeighbors m v c.1 c.2 chosen).1 hmem
        set m1 := (m.set_cell (c.1 + chosen.2.1 / 2) (c.2 + chosen.2.2 / 2) '.').set_cell
          chosen.1.1 chosen.1.2 '.' with hm1
        refine ih m1 (chosen.1 :: c :: rest) (v ++ [chosen.1]) (ctr + 1) ?_
        have hdim : inBoundsFinset m1 = inBoundsFinset m := by
          have hw : m1.width = m.width := by
            rw [hm1, Map.width_set_cell, Map.width_set_cell]
          have hh : m1.height = m.height := by
            rw [hm1, Map.height_set_cell, Map.height_set_cell]
          unfold inBoundsFinset
          rw [hw, hh]
        have hcard : ((inBoundsFinset m) \ (v ++ [chosen.1]).toFinset).card =
            ((inBoundsFinset m) \ v.toFinset).card - 1 := by
          have e1 : (v ++ [chosen.1]).toFinset = v.toFinset ∪ {chosen.1} := by
            rw [List.toFinset_append]
            rfl
          have e2 : (inBoundsFinset m) \ (v.toFinset ∪ {chosen.1}) =
              ((inBoundsFinset m) \ v.toFinset).erase chosen.1 := by
            ext a
            simp [Finset.mem_sdiff, Finset.mem_erase]
            tauto
          rw [e1, e2, Finset.card_erase_of_mem]
          refine Finset.mem_sdiff.2 ⟨(mem_inBoundsFinset m chosen.1).2 hb, ?_⟩
          exact fun hv => hnv (List.mem_toFinset.1 hv)
        have hpos : 0 < ((inBoundsFinset m) \ v.toFinset).card := by
          refine Finset.card_pos.2 ⟨chosen.1, ?_⟩
          refine Finset.mem_sdiff.2 ⟨(mem_inBoundsFinset m chosen.1).2 hb, ?_⟩
          exact fun hv => hnv (List.mem_toFinset.1 hv)
        simp only [dfsMeasure, hdim, hcard, List.length_cons, List.length_append] at hm ⊢
        omega

/-- `width if width % 2 == 1 else width + 1`: the odd-coercion of
`DungeonGenerator.__init__`. -/
def oddify (n : Nat) : Nat :=
  if n % 2 = 1 then n else n + 1

/-- The random odd start coordinate: `random.randrange(1, w-1, 2)` ranges
over the `(w-1)/2` odd values `1, 3, …, w-2` (for odd `w ≥ 3`); the draw is
modelled by an index `sx` reduced modulo that count. -/
def dungeonStart (w h sx sy : Nat) : Int × Int :=
  (((1 + 2 * (sx % ((w - 1) / 2)) : Nat) : Int),
   ((1 + 2 * (sy % ((h - 1) / 2)) : Nat) : Int))

/-- `DungeonGenerator` (`__init__` + `generate`): dimensions coerced to odd,
a random odd start cell carved and pushed, then the iterative DFS runs. -/
def dungeon_generate (width height : Nat) (sx sy : Nat) (choice : Nat → Nat) :
    Option Map :=
  dfsLoop (dfsFuel (oddify width) (oddify height))
    ((Map.init (oddify width) (oddify height)).set_cell
        (dungeonStart (oddify width) (oddify height) sx sy).1
        (dungeonStart (oddify width) (oddify height) sx sy).2 '.',
      [dungeonStart (oddify width) (oddify height) sx sy],
      [dungeonStart (oddify width) (oddify height) sx sy], 0) choice

theorem dfsMeasure_init_le (m : Map) (s : Int × Int) :
    dfsMeasure m [s] [s] ≤ 2 * (m.width * m.height) + 1 := by
  simp only [dfsMeasure, List.length_singleton]
  have h1 : ((inBoundsFinset m) \ ([s] : List (Int × Int)).toFinset).card ≤
      (inBoundsFinset m).card := Finset.card_le_card Finset.sdiff_subset
  have h2 := inBoundsFinset_card_le m
  omega

/-- **C9.** For all dimensions at least 2 and every sequence of random
choices, the dungeon DFS terminates: with the fuel bound `2·w·h + 2`
(reflecting the well-founded measure `2·|unvisited| + |stack|` of the
loop) the loop always completes and `generate` returns a map. -/
theorem dungeon_generate_terminates (width height sx sy : Nat) (choice : Nat → Nat)
    (hw : 2 ≤ width) (hh : 2 ≤ height) :
    (dungeon_generate width height sx sy choice).isSome = true := by
  unfold dungeon_generate
  refine dfsLoop_isSome choice _ _ _ _ _ ?_
  have h1 := dfsMeasure_init_le
    ((Map.init (oddify width) (oddify height)).set_cell
      (dungeonStart (oddify width) (oddify height) sx sy).1
      (dungeonStart (oddify width) (oddify height) sx sy).2 '.')
    (dungeonStart (oddify width) (oddify height) sx sy)
  rw [Map.width_set_cell, Map.height_set_cell] at h1
  have hw2 : (Map.init (oddify width) (oddify height)).width = oddify width := rfl
  have hh2 : (Map.init (oddify width) (oddify height)).height = oddify height := rfl
  rw [hw2, hh2] at h1
  unfold dfsFuel
  omega

/-- Witness for C9 at concrete inputs. -/
theorem dungeon_generate_terminates_witness :
    (dungeon_generate 4 5 3 7 (fun i => i + 1)).isSome = true :=
  dungeon_generate_terminates 4 5 3 7 (fun i => i + 1) (by norm_num) (by norm_num)

/-- Every cell of the buffer holds one of the two legal characters. -/
def CharsOK (m : Map) : Prop :=
  ∀ x y : Int, m.get_cell x y = '#' ∨ m.get_cell x y = '.'

theorem charsOK_init (w h : Nat) : CharsOK (Map.init w h) := by
  intro x y
  unfold Map.get_cell
  split
  · left
    rename_i hin
    have hy : y.toNat < h := by
      have h1 : (0:Int) ≤ y := hin.1
      have h2 : y < ((Map.init w h).height : Int) := hin.2.1
      simp only [Map.init] at h2
      omega
    have hx : x.toNat < w := by
      have h1 : (0:Int) ≤ x := hin.2.2.1
      have h2 : x < ((Map.init w h).width : Int) := hin.2.2.2
      simp only [Map.init] at h2
      omega
    have hrow : (Map.init w h).grid.getD y.toNat [] = List.replicate w '#' := by
      simp only [Map.init]
      rw [List.getD_eq_getElem _ _ (by simpa using hy)]
      exact List.getElem_replicate ..
    rw [hrow, List.getD_eq_getElem _ _ (by simpa using hx)]
    exact List.getElem_replicate ..
  · left; rfl

theorem charsOK_set_dot {m : Map} (hwf : m.WF) (hch : CharsOK m) (a b : Int) :
    CharsOK (m.set_cell a b '.') := by
  intro x y
  rw [Map.get_set_cell hwf]
  split
  · right; rfl
  · exact hch x y

/-- Floor cells after carving `'.'` at `(a, b)`. -/
theorem is_floor_set_dot {m : Map} (hwf : m.WF) (a b x y : Int) :
    (m.set_cell a b '.').is_floor x y = true ↔
      ((x = a ∧ y = b ∧ m.inRange a b) ∨ m.is_floor x y = true) := by
  unfold Map.is_floor
  rw [Map.get_set_cell hwf]
  split
  · rename_i hc
    simp only [beq_iff_eq]
    exact ⟨fun _ => Or.inl hc, fun _ => by decide⟩

  · rename_i hc
    simp only [beq_iff_eq]
    constructor
    · intro h; exact Or.inr (by simp [Map.is_floor, h])
    · intro h
      rcases h with h | h
      · exact absurd h hc
      · simpa [Map.is_floor] using h

/-- No floor cells exist in the all-wall initial map. -/
theorem is_floor_init (w h : Nat) (x y : Int) :
    (Map.init w h).is_floor x y = false := by
  rcases charsOK_init w h x y with hc | hc
  · simp [Map.is_floor, hc]
  · exfalso
    unfold Map.get_cell at hc
    revert hc
    split
    · rename_i hin
      have hy : y.toNat < h := by
        have h1 : (0:Int) ≤ y := hin.1
        have h2 : y < ((Map.init w h).height : Int) := hin.2.1
        simp only [Map.init] at h2
        omega
      have hx : x.toNat < w := by
        have h1 : (0:Int) ≤ x := hin.2.2.1
        have h2 : x < ((Map.init w h).width : Int) := hin.2.2.2
        simp only [Map.init] at h2
        omega
      have hrow : (Map.init w h).grid.getD y.toNat [] = List.replicate w '#' := by
        simp only [Map.init]
        rw [List.getD_eq_getElem _ _ (by simpa using hy)]
        exact List.getElem_replicate ..
      rw [hrow, List.getD_eq_getElem _ _ (by simpa using hx), List.getElem_replicate]
      decide
    · decide

/-- Geometry of one carve: with both dimensions odd, a both-odd in-range
stack top and an in-bounds candidate two cells away, the candidate is again
both-odd and in range, the midpoint is interior with at least one odd
coordinate, and top–midpoint–candidate are chained by unit adjacencies. -/
theorem carve_geometry {w h : Nat} (hwodd : w % 2 = 1) (hhodd : h % 2 = 1)
    {cx cy : Int} {d : Int × Int} (hd : d ∈ dungeonDirections)
    (hc : cx % 2 = 1 ∧ cy % 2 = 1 ∧ 1 ≤ cx ∧ cx ≤ (w:Int) - 2 ∧ 1 ≤ cy ∧ cy ≤ (h:Int) - 2)
    (hb : 0 ≤ cx + d.1 ∧ cx + d.1 < (w:Int) ∧ 0 ≤ cy + d.2 ∧ cy + d.2 < (h:Int)) :
    ((cx + d.1) % 2 = 1 ∧ (cy + d.2) % 2 = 1 ∧ 1 ≤ cx + d.1 ∧ cx + d.1 ≤ (w:Int) - 2 ∧
      1 ≤ cy + d.2 ∧ cy + d.2 ≤ (h:Int) - 2) ∧
    (1 ≤ cx + d.1 / 2 ∧ cx + d.1 / 2 ≤ (w:Int) - 2 ∧ 1 ≤ cy + d.2 / 2 ∧
      cy + d.2 / 2 ≤ (h:Int) - 2) ∧
    ((cx + d.1 / 2) % 2 = 1 ∨ (cy + d.2 / 2) % 2 = 1) ∧
    Adj (cx, cy) (cx + d.1 / 2, cy + d.2 / 2) ∧
    Adj (cx + d.1 / 2, cy + d.2 / 2) (cx + d.1, cy + d.2) := by
  obtain ⟨h1, h2, h3, h4, h5, h6⟩ := hc
  have hadj : ∀ (p q d : Int × Int), d ∈ directions → q.1 = p.1 + d.1 → q.2 = p.2 + d.2 →
      Adj p q := fun p q d hd h1 h2 => ⟨d, hd, Prod.ext h1 h2⟩
  simp only [dungeonDirections, List.mem_cons, List.not_mem_nil, or_false] at hd
  rcases hd with rfl | rfl | rfl | rfl
  · refine ⟨by simp at hb ⊢; omega, by simp at hb ⊢; omega, by simp; omega, ?_, ?_⟩
    · exact hadj _ _ (0, -1) (by simp [directions]) (by simp) (by simp <;> omega)
    · exact hadj _ _ (0, -1) (by simp [directions]) (by simp) (by simp <;> omega)
  · refine ⟨by simp at hb ⊢; omega, by simp at hb ⊢; omega, by simp; omega, ?_, ?_⟩
    · exact hadj _ _ (0, 1) (by simp [directions]) (by simp) (by simp <;> omega)
    · exact hadj _ _ (0, 1) (by simp [directions]) (by simp) (by simp <;> omega)
  · refine ⟨by simp at hb ⊢; omega, by simp at hb ⊢; omega, by simp; omega, ?_, ?_⟩
    · exact hadj _ _ (-1, 0) (by simp [directions]) (by simp <;> omega) (by simp)
    · exact hadj _ _ (-1, 0) (by simp [directions]) (by simp <;> omega) (by simp)
  · refine ⟨by simp at hb ⊢; omega, by simp at hb ⊢; omega, by simp; omega, ?_, ?_⟩
    · exact hadj _ _ (1, 0) (by simp [directions]) (by simp <;> omega) (by simp)
    · exact hadj _ _ (1, 0) (by simp [directions]) (by simp <;> omega) (by simp)

/-- Invariant of the dungeon DFS loop, for odd dimensions `w × h` and start
cell `s`: the carved map keeps its size and buffer shape, holds only the two
legal characters, visited cells are both-odd interior floor cells, the
stack holds visited cells, every floor cell is interior with at least one
odd coordinate, and every floor cell is floor-reachable from `s`. -/
structure DungeonInv (w h : Nat) (s : Int × Int) (m : Map)
    (stack v : List (Int × Int)) : Prop where
  wd : m.width = w
  ht : m.height = h
  wf : m.WF
  chars : CharsOK m
  s_mem : s ∈ v
  vis_odd : ∀ c ∈ v, c.1 % 2 = 1 ∧ c.2 % 2 = 1 ∧ 1 ≤ c.1 ∧ c.1 ≤ (w:Int) - 2 ∧
    1 ≤ c.2 ∧ c.2 ≤ (h:Int) - 2
  stack_sub : ∀ c ∈ stack, c ∈ v
  vis_floor : ∀ c ∈ v, m.is_floor c.1 c.2 = true
  floor_prop : ∀ x y : Int, m.is_floor x y = true →
    1 ≤ x ∧ x ≤ (w:Int) - 2 ∧ 1 ≤ y ∧ y ≤ (h:Int) - 2 ∧ (x % 2 = 1 ∨ y % 2 = 1)
  floor_reach : ∀ x y : Int, m.is_floor x y = true → ∃ n, Reach m s (x, y) n

/-- One carving step preserves the dungeon invariant. -/
theorem dungeonInv_carve {w h : Nat} (hwodd : w % 2 = 1) (hhodd : h % 2 = 1)
    {s c : Int × Int} {m : Map} {stack v : List (Int × Int)}
    (inv : DungeonInv w h s m (c :: stack) v)
    {chosen : (Int × Int) × (Int × Int)}
    (hmem : chosen ∈ dfsNeighbors m v c.1 c.2) :
    DungeonInv w h s
      ((m.set_cell (c.1 + chosen.2.1 / 2) (c.2 + chosen.2.2 / 2) '.').set_cell
        chosen.1.1 chosen.1.2 '.')
      (chosen.1 :: c :: stack) (v ++ [chosen.1]) := by
  obtain ⟨hd, he1, hb, hnv⟩ := (mem_dfsNeighbors m v c.1 c.2 chosen).1 hmem
  have hcv : c ∈ v := inv.stack_sub _ (List.mem_cons_self _ _)
  have hcodd := inv.vis_odd _ hcv
  have hb' : 0 ≤ c.1 + chosen.2.1 ∧ c.1 + chosen.2.1 < (w:Int) ∧
      0 ≤ c.2 + chosen.2.2 ∧ c.2 + chosen.2.2 < (h:Int) := by
    have hx : chosen.1.1 = c.1 + chosen.2.1 := congrArg Prod.fst he1
    have hy : chosen.1.2 = c.2 + chosen.2.2 := congrArg Prod.snd he1
    have := hb
    simp only [Map.in_bounds, decide_eq_true_eq] at this
    rw [hx, hy] at this
    rw [inv.wd, inv.ht] at this
    exact ⟨this.1, this.2.1, this.2.2.1, this.2.2.2⟩
  obtain ⟨hcand, hmid, hmidodd, hadj1, hadj2⟩ :=
    carve_geometry hwodd hhodd hd ⟨hcodd.1, hcodd.2.1, hcodd.2.2.1, hcodd.2.2.2.1,
      hcodd.2.2.2.2.1, hcodd.2.2.2.2.2⟩ hb'
  set mx := c.1 + chosen.2.1 / 2 with hmx
  set my := c.2 + chosen.2.2 / 2 with hmy
  have hwf1 : (m.set_cell mx my '.').WF := inv.wf.set_cell _ _ _
  have hwf2 : ((m.set_cell mx my '.').set_cell chosen.1.1 chosen.1.2 '.').WF :=
    hwf1.set_cell _ _ _
  have hmid_in : m.inRange mx my := by
    unfold Map.inRange
    rw [inv.wd, inv.ht]
    omega
  have hnbr_in : (m.set_cell mx my '.').inRange chosen.1.1 chosen.1.2 := by
    rw [Map.inRange_set_cell]
    unfold Map.inRange
    rw [inv.wd, inv.ht]
    have hx : chosen.1.1 = c.1 + chosen.2.1 := congrArg Prod.fst he1
    have hy : chosen.1.2 = c.2 + chosen.2.2 := congrArg Prod.snd he1
    rw [hx, hy]
    omega
  -- floor characterization of the carved map
  have hflchar : ∀ x y : Int,
      ((m.set_cell mx my '.').set_cell chosen.1.1 chosen.1.2 '.').is_floor x y = true ↔
        ((x = chosen.1.1 ∧ y = chosen.1.2) ∨ (x = mx ∧ y = my) ∨
          m.is_floor x y = true) := by
    intro x y
    rw [is_floor_set_dot hwf1, is_floor_set_dot inv.wf]
    constructor
    · rintro (⟨hx, hy, _⟩ | (⟨hx, hy, _⟩ | hf))
      · exact Or.inl ⟨hx, hy⟩
      · exact Or.inr (Or.inl ⟨hx, hy⟩)
      · exact Or.inr (Or.inr hf)
    · rintro (⟨hx, hy⟩ | (⟨hx, hy⟩ | hf))
      · exact Or.inl ⟨hx, hy, hnbr_in⟩
      · exact Or.inr (Or.inl ⟨hx, hy, hmid_in⟩)
      · exact Or.inr (Or.inr hf)
  have hmono : ∀ x y : Int, m.is_floor x y = true →
      ((m.set_cell mx my '.').set_cell chosen.1.1 chosen.1.2 '.').is_floor x y = true :=
    fun x y hf => (hflchar x y).2 (Or.inr (Or.inr hf))
  have hx1 : chosen.1.1 = c.1 + chosen.2.1 := congrArg Prod.fst he1
  have hy1 : chosen.1.2 = c.2 + chosen.2.2 := congrArg Prod.snd he1
  have hnbr_floor :
      ((m.set_cell mx my '.').set_cell chosen.1.1 chosen.1.2 '.').is_floor
        chosen.1.1 chosen.1.2 = true :=
    (hflchar _ _).2 (Or.inl ⟨rfl, rfl⟩)
  have hmid_floor :
      ((m.set_cell mx my '.').set_cell chosen.1.1 chosen.1.2 '.').is_floor mx my = true :=
    (hflchar _ _).2 (Or.inr (Or.inl ⟨rfl, rfl⟩))
  have hreach_new : ∀ x y : Int,
      ((m.set_cell mx my '.').set_cell chosen.1.1 chosen.1.2 '.').is_floor x y = true →
      ∃ n, Reach ((m.set_cell mx my '.').set_cell chosen.1.1 chosen.1.2 '.') s (x, y) n := by
    have hc_floor : m.is_floor c.1 c.2 = true := inv.vis_floor _ hcv
    obtain ⟨nc, hnc⟩ := inv.floor_reach c.1 c.2 hc_floor
    have hnc' : Reach ((m.set_cell mx my '.').set_cell chosen.1.1 chosen.1.2 '.') s
        (c.1, c.2) nc := hnc.mono hmono
    have hmid_reach : Reach ((m.set_cell mx my '.').set_cell chosen.1.1 chosen.1.2 '.') s
        (mx, my) (nc + 1) := Reach.step hnc' (by
          have : ((c.1, c.2) : Int × Int) = c := rfl
          rw [this]
          exact hadj1) hmid_floor
    have hnbr_reach : Reach ((m.set_cell mx my '.').set_cell chosen.1.1 chosen.1.2 '.') s
        (chosen.1.1, chosen.1.2) (nc + 2) := by
      refine Reach.step hmid_reach ?_ ?_
      · have he : ((chosen.1.1, chosen.1.2) : Int × Int) = (c.1 + chosen.2.1, c.2 + chosen.2.2) := by
          rw [hx1, hy1]
        rw [he]
        exact hadj2
      · exact hnbr_floor
    intro x y hf
    rcases (hflchar x y).1 hf with ⟨hx, hy⟩ | (⟨hx, hy⟩ | hfold)
    · subst hx; subst hy
      exact ⟨nc + 2, hnbr_reach⟩
    · subst hx; subst hy
      exact ⟨nc + 1, hmid_reach⟩
    · obtain ⟨n, hn⟩ := inv.floor_reach x y hfold
      exact ⟨n, hn.mono hmono⟩
  constructor
  case wd => rw [Map.width_set_cell, Map.width_set_cell, inv.wd]
  case ht => rw [Map.height_set_cell, Map.height_set_cell, inv.ht]
  case wf => exact hwf2
  case chars => exact charsOK_set_dot hwf1 (charsOK_set_dot inv.wf inv.chars _ _) _ _
  case s_mem => exact List.mem_append_left _ inv.s_mem
  case vis_odd =>
    intro e he
    rcases List.mem_append.1 he with he' | he'
    · exact inv.vis_odd _ he'
    · rw [List.mem_singleton.1 he']
      rw [hx1, hy1]
      exact ⟨hcand.1, hcand.2.1, hcand.2.2.1, hcand.2.2.2.1, hcand.2.2.2.2.1,
        hcand.2.2.2.2.2⟩
  case stack_sub =>
    intro e he
    rcases List.mem_cons.1 he with rfl | he'
    · exact List.mem_append_right _ (List.mem_singleton.2 rfl)
    · exact List.mem_append_left _ (inv.stack_sub _ he')
  case vis_floor =>
    intro e he
    rcases List.mem_append.1 he with he' | he'
    · exact hmono _ _ (inv.vis_floor _ he')
    · rw [List.mem_singleton.1 he']
      exact hnbr_floor
  case floor_prop =>
    intro x y hf
    rcases (hflchar x y).1 hf with ⟨hx, hy⟩ | (⟨hx, hy⟩ | hfold)
    · subst hx; subst hy
      rw [hx1, hy1]
      exact ⟨hcand.2.2.1, hcand.2.2.2.1, hcand.2.2.2.2.1, hcand.2.2.2.2.2,
        Or.inl hcand.1⟩
    · subst hx; subst hy
      exact ⟨hmid.1, hmid.2.1, hmid.2.2.1, hmid.2.2.2, hmidodd⟩
    · exact inv.floor_prop x y hfold
  case floor_reach => exact hreach_new

/-- The DFS loop preserves the dungeon invariant down to its final map. -/
theorem dfsLoop_inv {w h : Nat} (hwodd : w % 2 = 1) (hhodd : h % 2 = 1)
    (s : Int × Int) (choice : Nat → Nat) :
    ∀ (fuel : Nat) (m : Map) (stack v : List (Int × Int)) (ctr : Nat),
      DungeonInv w h s m stack v →
      ∀ out, dfsLoop fuel (m, stack, v, ctr) choice = some out →
        ∃ v', DungeonInv w h s out [] v' := by
  intro fuel
  induction fuel with
  | zero =>
    intro m stack v ctr inv out hout
    match stack, hout with
    | [], hout =>
      have : m = out := by simpa [dfsLoop] using hout
      exact ⟨v, this ▸ inv⟩
    | e :: rest, hout => exact absurd hout (by simp [dfsLoop])
  | succ fuel ih =>
    intro m stack v ctr inv out hout
    match stack, hout with
    | [], hout =>
      have : m = out := by simpa [dfsLoop] using hout
      exact ⟨v, this ▸ inv⟩
    | c :: rest, hout =>
      rw [dfsLoop] at hout
      by_cases hns : dfsNeighbors m v c.1 c.2 = []
      · rw [if_pos hns] at hout
        refine ih m rest v ctr ?_ out hout
        exact { inv with stack_sub := fun e he => inv.stack_sub _ (List.mem_cons_of_mem _ he) }
      · rw [if_neg hns] at hout
        have hlen : choice ctr % (dfsNeighbors m v c.1 c.2).length <
            (dfsNeighbors m v c.1 c.2).length := Nat.mod_lt _ (List.length_pos.2 hns)
        have hmem : (dfsNeighbors m v c.1 c.2).getD
            (choice ctr % (dfsNeighbors m v c.1 c.2).length) ((0, 0), (0, 0)) ∈
            dfsNeighbors m v c.1 c.2 := by
          rw [List.getD_eq_getElem _ _ hlen]
          exact List.getElem_mem _
        exact ih _ _ _ _ (dungeonInv_carve hwodd hhodd inv hmem) out hout

theorem oddify_odd (n : Nat) : oddify n % 2 = 1 := by
  unfold oddify
  split <;> omega

theorem oddify_ge (n : Nat) (h : 2 ≤ n) : 3 ≤ oddify n := by
  unfold oddify
  split <;> omega

/-- The initial DFS state satisfies the dungeon invariant. -/
theorem dungeonInv_init (width height sx sy : Nat) (hw : 2 ≤ width) (hh : 2 ≤ height) :
    DungeonInv (oddify width) (oddify height)
      (dungeonStart (oddify width) (oddify height) sx sy)
      ((Map.init (oddify width) (oddify height)).set_cell
        (dungeonStart (oddify width) (oddify height) sx sy).1
        (dungeonStart (oddify width) (oddify height) sx sy).2 '.')
      [dungeonStart (oddify width) (oddify height) sx sy]
      [dungeonStart (oddify width) (oddify height) sx sy] := by
  set w := oddify width with hwdef
  set h := oddify height with hhdef
  have hw3 : 3 ≤ w := oddify_ge width hw
  have hh3 : 3 ≤ h := oddify_ge height hh
  have hwodd : w % 2 = 1 := oddify_odd width
  have hhodd : h % 2 = 1 := oddify_odd height
  set s := dungeonStart w h sx sy with hsdef
  have hs_props : s.1 % 2 = 1 ∧ s.2 % 2 = 1 ∧ 1 ≤ s.1 ∧ s.1 ≤ (w:Int) - 2 ∧
      1 ≤ s.2 ∧ s.2 ≤ (h:Int) - 2 := by
    rw [hsdef]
    unfold dungeonStart
    have hx := Nat.mod_lt sx (y := (w - 1) / 2) (by omega)
    have hy := Nat.mod_lt sy (y := (h - 1) / 2) (by omega)
    refine ⟨?_, ?_, ?_, ?_, ?_, ?_⟩ <;> simp only [] <;> omega
  have hinit_wf : (Map.init w h).WF := Map.WF.init w h
  have hs_in : (Map.init w h).inRange s.1 s.2 := by
    unfold Map.inRange
    have h1 : ((Map.init w h).height : Int) = (h : Int) := rfl
    have h2 : ((Map.init w h).width : Int) = (w : Int) := rfl
    rw [h1, h2]
    omega
  have hfl : ∀ x y : Int,
      ((Map.init w h).set_cell s.1 s.2 '.').is_floor x y = true ↔ (x = s.1 ∧ y = s.2) := by
    intro x y
    rw [is_floor_set_dot hinit_wf]
    constructor
    · rintro (⟨hx, hy, _⟩ | hf)
      · exact ⟨hx, hy⟩
      · rw [is_floor_init] at hf
        exact absurd hf (by decide)
    · rintro ⟨hx, hy⟩
      exact Or.inl ⟨hx, hy, hs_in⟩
  constructor
  case wd => rw [Map.width_set_cell]; rfl
  case ht => rw [Map.height_set_cell]; rfl
  case wf => exact hinit_wf.set_cell _ _ _
  case chars => exact charsOK_set_dot hinit_wf (charsOK_init w h) _ _
  case s_mem => exact List.mem_singleton.2 rfl
  case vis_odd =>
    intro c hc
    rw [List.mem_singleton.1 hc]
    exact hs_props
  case stack_sub => intro c hc; exact hc
  case vis_floor =>
    intro c hc
    rw [List.mem_singleton.1 hc]
    exact (hfl _ _).2 ⟨rfl, rfl⟩
  case floor_prop =>
    intro x y hf
    obtain ⟨hx, hy⟩ := (hfl x y).1 hf
    subst hx; subst hy
    exact ⟨hs_props.2.2.1, hs_props.2.2.2.1, hs_props.2.2.2.2.1, hs_props.2.2.2.2.2,
      Or.inl hs_props.1⟩
  case floor_reach =>
    intro x y hf
    obtain ⟨hx, hy⟩ := (hfl x y).1 hf
    subst hx; subst hy
    exact ⟨0, Reach.refl _⟩

/-- **C10.** Every floor cell of a generated dungeon (effective odd
dimensions `w × h`) lies in the interior `[1, w-2] × [1, h-2]` and has at
least one odd coordinate; consequently every border cell is wall. -/
theorem dungeon_floor_cells (width height sx sy : Nat) (choice : Nat → Nat)
    (hw : 2 ≤ width) (hh : 2 ≤ height) (m : Map)
    (hm : dungeon_generate width height sx sy choice = some m) :
    (∀ x y : Int, m.is_floor x y = true →
      1 ≤ x ∧ x ≤ ((oddify width : Nat) : Int) - 2 ∧
      1 ≤ y ∧ y ≤ ((oddify height : Nat) : Int) - 2 ∧ (x % 2 = 1 ∨ y % 2 = 1)) ∧
    (∀ x y : Int,
      (x = 0 ∨ x = ((oddify width : Nat) : Int) - 1 ∨ y = 0 ∨
        y = ((oddify height : Nat) : Int) - 1) → m.is_wall x y = true) := by
  unfold dungeon_generate at hm
  obtain ⟨v', fin⟩ := dfsLoop_inv (oddify_odd width) (oddify_odd height)
    (dungeonStart (oddify width) (oddify height) sx sy) choice _ _ _ _ _
    (dungeonInv_init width height sx sy hw hh) m hm
  refine ⟨fin.floor_prop, ?_⟩
  intro x y hxy
  rcases fin.chars x y with hch | hch
  · simp [Map.is_wall, hch]
  · exfalso
    have hf : m.is_floor x y = true := by simp [Map.is_floor, hch]
    obtain ⟨h1, h2, h3, h4, _⟩ := fin.floor_prop x y hf
    have hw3 := oddify_ge width hw
    have hh3 := oddify_ge height hh
    rcases hxy with h | h | h | h <;> omega

/-- Witness for C10 on a concrete generated dungeon. -/
theorem dungeon_floor_cells_witness :
    ((dungeon_generate 4 5 3 7 (fun i => i + 1)).getD (Map.init 0 0)).is_wall 0 2 = true :=
  (dungeon_floor_cells 4 5 3 7 (fun i => i + 1) (by norm_num) (by norm_num)
    ((dungeon_generate 4 5 3 7 (fun i => i + 1)).getD (Map.init 0 0))
    (by decide)).2 0 2 (Or.inl rfl)

/-- The floor cells of `m` form a single non-empty connected component. -/
def OneFloorComponent (m : Map) : Prop :=
  (∃ c : Int × Int, m.is_floor c.1 c.2 = true) ∧
  ∀ c c' : Int × Int, m.is_floor c.1 c.2 = true → m.is_floor c'.1 c'.2 = true →
    ∃ n, Reach m c c' n

/-- A generated dungeon has exactly one floor component (used by C2). -/
theorem dungeon_one_component_aux (width height sx sy : Nat) (choice : Nat → Nat)
    (hw : 2 ≤ width) (hh : 2 ≤ height) (m : Map)
    (hm : dungeon_generate width height sx sy choice = some m) :
    OneFloorComponent m := by
  unfold dungeon_generate at hm
  obtain ⟨v', fin⟩ := dfsLoop_inv (oddify_odd width) (oddify_odd height)
    (dungeonStart (oddify width) (oddify height) sx sy) choice _ _ _ _ _
    (dungeonInv_init width height sx sy hw hh) m hm
  set s := dungeonStart (oddify width) (oddify height) sx sy with hsdef
  have hs_floor : m.is_floor s.1 s.2 = true := fin.vis_floor _ fin.s_mem
  refine ⟨⟨s, hs_floor⟩, ?_⟩
  intro c c' hc hc'
  obtain ⟨n, hn⟩ := fin.floor_reach c.1 c.2 hc
  obtain ⟨n', hn'⟩ := fin.floor_reach c'.1 c'.2 hc'
  have h1 : Reach m c s n := by
    have := hn.reverse hs_floor
    exact this
  have h2 : Reach m c c' (n + n') := h1.trans hn'
  exact ⟨n + n', h2⟩

/-! ## `CavernGenerator` -/

/-- All grid coordinates in the row-major scan order of
`_ensure_connectivity` (`y` outer, `x` inner). -/
def allCellsList (w h : Nat) : List (Int × Int) :=
  (List.range h).flatMap (fun (y : Nat) =>
    (List.range w).map (fun (x : Nat) => ((x : Int), (y : Int))))

theorem mem_allCellsList (w h : Nat) (x y : Int) :
    (x, y) ∈ allCellsList w h ↔ 0 ≤ x ∧ x < (w : Int) ∧ 0 ≤ y ∧ y < (h : Int) := by
  constructor
  · intro hmem
    obtain ⟨j, hj, hmem2⟩ := List.mem_flatMap.1 hmem
    obtain ⟨i, hi, heq⟩ := List.mem_map.1 hmem2
    rw [List.mem_range] at hj hi
    have hx : (i : Int) = x := congrArg Prod.fst heq
    have hy : (j : Int) = y := congrArg Prod.snd heq
    omega
  · rintro ⟨h1, h2, h3, h4⟩
    refine List.mem_flatMap.2 ⟨y.toNat, ?_, ?_⟩
    · rw [List.mem_range]; omega
    · refine List.mem_map.2 ⟨x.toNat, ?_, ?_⟩
      · rw [List.mem_range]; omega
      · exact Prod.ext (by omega) (by omega)

theorem allCellsList_nodup (w h : Nat) : (allCellsList w h).Nodup := by
  refine List.nodup_flatMap.2 ⟨?_, ?_⟩
  · intro j _
    refine List.Nodup.map ?_ (List.nodup_range w)
    intro a b hab
    have := congrArg Prod.fst hab
    simp only at this
    omega
  · have hlt := List.pairwise_lt_range h
    refine hlt.imp ?_
    intro a b hab p hpa hpb
    obtain ⟨i, hi, rfl⟩ := List.mem_map.1 hpa
    obtain ⟨i', hi', hpe⟩ := List.mem_map.1 hpb
    have := congrArg Prod.snd hpe
    simp only at this
    omega

/-- The per-cell action of `_random_seed`, threading the draw counter. -/
def seedStep (wall_probability : Rat) (rand : Nat → Rat) (acc : Map × Nat)
    (p : Int × Int) : Map × Nat :=
  (if rand acc.2 > wall_probability then acc.1.set_cell p.1 p.2 '.' else acc.1,
    acc.2 + 1)

/-- `CavernGenerator._random_seed`: every interior cell becomes floor when
its uniform draw exceeds `wall_probability`; `rand` models the stream of
`random.random()` draws, consumed in loop order. -/
def random_seed (wall_probability : Rat) (rand : Nat → Rat) (m : Map) : Map :=
  ((interiorPairs m.width m.height).foldl (seedStep wall_probability rand) (m, 0)).1

theorem random_seed_preserves (wall_probability : Rat) (rand : Nat → Rat) (m : Map)
    (hwf : m.WF) :
    (random_seed wall_probability rand m).WF ∧
    (random_seed wall_probability rand m).width = m.width ∧
    (random_seed wall_probability rand m).height = m.height := by
  unfold random_seed
  have hgen : ∀ (ps : List (Int × Int)) (acc : Map × Nat), acc.1.WF →
      acc.1.width = m.width → acc.1.height = m.height →
      (ps.foldl (seedStep wall_probability rand) acc).1.WF ∧
      (ps.foldl (seedStep wall_probability rand) acc).1.width = m.width ∧
      (ps.foldl (seedStep wall_probability rand) acc).1.height = m.height := by
    intro ps
    induction ps with
    | nil => intro acc h1 h2 h3; exact ⟨h1, h2, h3⟩
    | cons p ps ih =>
      intro acc h1 h2 h3
      simp only [List.foldl_cons]
      refine ih _ ?_ ?_ ?_ <;> unfold seedStep
      · split
        · exact h1.set_cell _ _ _
        · exact h1
      · split
        · rw [Map.width_set_cell]; exact h2
        · exact h2
      · split
        · rw [Map.height_set_cell]; exact h3
        · exact h3
  exact hgen _ (m, 0) hwf rfl rfl

theorem smooth_preserves (m : Map) (hwf : m.WF) :
    m.smooth.WF ∧ m.smooth.width = m.width ∧ m.smooth.height = m.height := by
  obtain ⟨h1, h2, h3, _⟩ := smooth_foldl_spec m (interiorPairs m.width m.height) m
    hwf rfl rfl (interiorPairs_nodup _ _)
    (by
      intro p hp
      have := (mem_interiorPairs m.width m.height p.1 p.2).1 (by
        have he : ((p.1, p.2) : Int × Int) = p := rfl
        rw [he]
        exact hp)
      unfold Map.inRange
      omega)
    (fun p _ => rfl)
  exact ⟨h1, h2, h3⟩

/-- Python's `max(components, key=len)`: first component of maximal size. -/
def maxByLen : List (List (Int × Int)) → Option (List (Int × Int))
  | [] => none
  | c :: rest => some (rest.foldl (fun best f => if best.length < f.length then f else best) c)

theorem maxByLen_spec :
    ∀ (l : List (List (Int × Int))) (b : List (Int × Int)),
      maxByLen l = some b → b ∈ l ∧ ∀ e ∈ l, e.length ≤ b.length := by
  have hfold : ∀ (rest : List (List (Int × Int))) (e : List (Int × Int)),
      (rest.foldl (fun best f => if best.length < f.length then f else best) e) ∈ e :: rest ∧
      e.length ≤ (rest.foldl (fun best f => if best.length < f.length then f else best) e).length ∧
      ∀ x ∈ rest, x.length ≤
        (rest.foldl (fun best f => if best.length < f.length then f else best) e).length := by
    intro rest
    induction rest with
    | nil => intro e; exact ⟨List.mem_singleton.2 rfl, le_refl _, by simp⟩
    | cons f rest ih =>
      intro e
      simp only [List.foldl_cons]
      obtain ⟨hmem, hle, hall⟩ := ih (if e.length < f.length then f else e)
      have hbound : e.length ≤ (if e.length < f.length then f else e).length ∧
          f.length ≤ (if e.length < f.length then f else e).length := by
        by_cases h : e.length < f.length <;> simp [h] <;> omega
      refine ⟨?_, le_trans hbound.1 hle, ?_⟩
      · rcases List.mem_cons.1 hmem with h | h
        · rw [h]
          by_cases hc : e.length < f.length
          · simp only [hc, if_true]
            exact List.mem_cons_of_mem _ (List.mem_cons_self _ _)
          · simp only [hc, if_false]
            exact List.mem_cons_self _ _
        · exact List.mem_cons_of_mem _ (List.mem_cons_of_mem _ h)
      · intro x hx
        rcases List.mem_cons.1 hx with rfl | hx'
        · exact le_trans hbound.2 hle
        · exact hall _ hx'
  intro l b hb
  match l, hb with
  | e :: rest, hb =>
    have hb' : rest.foldl (fun best f => if best.length < f.length then f else best) e = b := by
      simpa [maxByLen] using hb
    obtain ⟨hmem, hle, hall⟩ := hfold rest e
    rw [hb'] at hmem hle hall
    refine ⟨hmem, ?_⟩
    intro x hx
    rcases List.mem_cons.1 hx with rfl | hx'
    · exact hle
    · exact hall _ hx'

/-- One direction of the neighbour scan of `_bfs_component`: the shared
`visited` set and the local `component` receive the same appends. -/
def compStep (m : Map) (x y : Int)
    (acc : List (Int × Int) × List (Int × Int) × List (Int × Int)) (d : Int × Int) :
    List (Int × Int) × List (Int × Int) × List (Int × Int) :=
  let nx := x + d.1
  let ny := y + d.2
  if m.in_bounds nx ny = true ∧ m.is_floor nx ny = true ∧ (nx, ny) ∉ acc.2.1 then
    (acc.1 ++ [(nx, ny)], acc.2.1 ++ [(nx, ny)], acc.2.2 ++ [(nx, ny)])
  else acc

/-- The full direction scan for one dequeued cell of `_bfs_component`. -/
def compExpand (m : Map) (x y : Int)
    (qvc : List (Int × Int) × List (Int × Int) × List (Int × Int)) :
    List (Int × Int) × List (Int × Int) × List (Int × Int) :=
  directions.foldl (compStep m x y) qvc

theorem compStep_foldl_spec (m : Map) (x y : Int) :
    ∀ (ds : List (Int × Int)) (q v comp : List (Int × Int)),
    ∃ new : List (Int × Int),
      (ds.foldl (compStep m x y) (q, v, comp)).1 = q ++ new ∧
      (ds.foldl (compStep m x y) (q, v, comp)).2.1 = v ++ new ∧
      (ds.foldl (compStep m x y) (q, v, comp)).2.2 = comp ++ new ∧
      new.Nodup ∧
      (∀ c ∈ new, (∃ d ∈ ds, c = (x + d.1, y + d.2)) ∧
        m.is_floor c.1 c.2 = true ∧ c ∉ v) ∧
      (∀ d ∈ ds, m.is_floor (x + d.1) (y + d.2) = true →
        (x + d.1, y + d.2) ∈ v ∨ (x + d.1, y + d.2) ∈ new) := by
  intro ds
  induction ds with
  | nil => intro q v comp; exact ⟨[], by simp⟩
  | cons d ds ih =>
    intro q v comp
    by_cases hc : m.in_bounds (x + d.1) (y + d.2) = true ∧
        m.is_floor (x + d.1) (y + d.2) = true ∧ (x + d.1, y + d.2) ∉ v
    · obtain ⟨new, h1, h2, h3, h4, h5, h6⟩ :=
        ih (q ++ [(x + d.1, y + d.2)]) (v ++ [(x + d.1, y + d.2)])
          (comp ++ [(x + d.1, y + d.2)])
      have hstep : compStep m x y (q, v, comp) d =
          (q ++ [(x + d.1, y + d.2)], v ++ [(x + d.1, y + d.2)],
            comp ++ [(x + d.1, y + d.2)]) := by
        simp [compStep, hc]
      refine ⟨(x + d.1, y + d.2) :: new, ?_, ?_, ?_, ?_, ?_, ?_⟩
      · simp only [List.foldl_cons, hstep, h1, List.append_assoc, List.singleton_append]
      · simp only [List.foldl_cons, hstep, h2, List.append_assoc, List.singleton_append]
      · simp only [List.foldl_cons, hstep, h3, List.append_assoc, List.singleton_append]
      · refine List.nodup_cons.2 ⟨?_, h4⟩
        intro hmem
        have := (h5 _ hmem).2.2
        simp at this
      · intro c hmem
        rcases List.mem_cons.1 hmem with rfl | hmem'
        · exact ⟨⟨d, List.mem_cons_self _ _, rfl⟩, hc.2.1, hc.2.2⟩
        · obtain ⟨⟨d', hd', hcd⟩, hfl, hnv⟩ := h5 _ hmem'
          refine ⟨⟨d', List.mem_cons_of_mem _ hd', hcd⟩, hfl, ?_⟩
          intro hcv
          exact hnv (List.mem_append_left _ hcv)
      · intro d' hd' hfl
        rcases List.mem_cons.1 hd' with rfl | hd''
        · right; exact List.mem_cons_self _ _
        · rcases h6 d' hd'' hfl with hv | hnew
          · rcases List.mem_append.1 hv with hv' | hv'
            · left; exact hv'
            · right
              simp only [List.mem_singleton] at hv'
              exact hv' ▸ List.mem_cons_self _ _
          · right; exact List.mem_cons_of_mem _ hnew
    · obtain ⟨new, h1, h2, h3, h4, h5, h6⟩ := ih q v comp
      have hstep : compStep m x y (q, v, comp) d = (q, v, comp) := by
        simp only [compStep]
        rw [if_neg hc]
      refine ⟨new, ?_, ?_, ?_, h4, ?_, ?_⟩
      · simpa only [List.foldl_cons, hstep] using h1
      · simpa only [List.foldl_cons, hstep] using h2
      · simpa only [List.foldl_cons, hstep] using h3
      · intro c hmem
        obtain ⟨⟨d', hd', hcd⟩, hfl, hnv⟩ := h5 _ hmem
        exact ⟨⟨d', List.mem_cons_of_mem _ hd', hcd⟩, hfl, hnv⟩
      · intro d' hd' hfl
        rcases List.mem_cons.1 hd' with rfl | hd''
        · left
          by_contra hnv
          exact hc ⟨Map.is_floor_in_bounds hfl, hfl, hnv⟩
        · exact h6 d' hd'' hfl

/-- Specification of `compExpand` in terms of `Adj`. -/
theorem compExpand_spec (m : Map) (x y : Int) (q v comp : List (Int × Int)) :
    ∃ new : List (Int × Int),
      (compExpand m x y (q, v, comp)).1 = q ++ new ∧
      (compExpand m x y (q, v, comp)).2.1 = v ++ new ∧
      (compExpand m x y (q, v, comp)).2.2 = comp ++ new ∧
      new.Nodup ∧
      (∀ c ∈ new, Adj (x, y) c ∧ m.is_floor c.1 c.2 = true ∧ c ∉ v) ∧
      (∀ c, Adj (x, y) c → m.is_floor c.1 c.2 = true → c ∈ v ∨ c ∈ new) := by
  obtain ⟨new, h1, h2, h3, h4, h5, h6⟩ := compStep_foldl_spec m x y directions q v comp
  refine ⟨new, h1, h2, h3, h4, ?_, ?_⟩
  · intro c hmem
    obtain ⟨⟨d, hd, hcd⟩, hfl, hnv⟩ := h5 _ hmem
    exact ⟨⟨d, hd, hcd⟩, hfl, hnv⟩
  · rintro c ⟨d, hd, rfl⟩ hfl
    exact h6 d hd hfl

/-- Termination measure of the component BFS loop. -/
def compMeasure (m : Map) (q v : List (Int × Int)) : Nat :=
  5 * ((inBoundsFinset m) \ v.toFinset).card + q.length

theorem compExpand_measure_le (m : Map) (x y : Int) (q v comp : List (Int × Int)) :
    compMeasure m (compExpand m x y (q, v, comp)).1 (compExpand m x y (q, v, comp)).2.1 ≤
      compMeasure m q v := by
  obtain ⟨new, h1, h2, _, h3, h4, _⟩ := compExpand_spec m x y q v comp
  have hsub : new.toFinset ⊆ (inBoundsFinset m) \ v.toFinset := by
    intro c hc
    have hc' := List.mem_toFinset.1 hc
    obtain ⟨_, hfl, hnv⟩ := h4 _ hc'
    refine Finset.mem_sdiff.2 ⟨(mem_inBoundsFinset m c).2 (Map.is_floor_in_bounds hfl), ?_⟩
    exact fun hv => hnv (List.mem_toFinset.1 hv)
  have hcard : ((inBoundsFinset m) \ (v ++ new).toFinset).card =
      ((inBoundsFinset m) \ v.toFinset).card - new.length := by
    have e1 : (v ++ new).toFinset = v.toFinset ∪ new.toFinset := List.toFinset_append
    have e2 : (inBoundsFinset m) \ (v.toFinset ∪ new.toFinset) =
        ((inBoundsFinset m) \ v.toFinset) \ new.toFinset := by
      ext a; simp [Finset.mem_sdiff]; tauto
    rw [e1, e2, Finset.card_sdiff hsub, List.toFinset_card_of_nodup h3]
  have hle : new.length ≤ ((inBoundsFinset m) \ v.toFinset).card := by
    calc new.length = new.toFinset.card := (List.toFinset_card_of_nodup h3).symm
    _ ≤ _ := Finset.card_le_card hsub
  simp only [compMeasure, h1, h2, hcard, List.length_append]
  omega

/-- The `while queue:` loop of `_bfs_component`, with fuel; returns the
final shared visited set and the component. -/
def compLoop (m : Map) :
    Nat → List (Int × Int) → List (Int × Int) → List (Int × Int) →
      Option (List (Int × Int) × List (Int × Int))
  | _, [], v, comp => some (v, comp)
  | 0, _ :: _, _, _ => none
  | fuel + 1, c :: rest, v, comp =>
    compLoop m fuel (compExpand m c.1 c.2 (rest, v, comp)).1
      (compExpand m c.1 c.2 (rest, v, comp)).2.1
      (compExpand m c.1 c.2 (rest, v, comp)).2.2

theorem compLoop_isSome (m : Map) :
    ∀ (fuel : Nat) (q v comp : List (Int × Int)),
      compMeasure m q v ≤ fuel → (compLoop m fuel q v comp).isSome = true := by
  intro fuel
  induction fuel with
  | zero =>
    intro q v comp hm
    match q with
    | [] => rfl
    | e :: rest =>
      exfalso
      simp [compMeasure] at hm
  | succ fuel ih =>
    intro q v comp hm
    match q with
    | [] => rfl
    | c :: rest =>
      rw [compLoop]
      refine ih _ _ _ ?_
      have h1 := compExpand_measure_le m c.1 c.2 rest v comp
      have h2 : compMeasure m rest v + 1 = compMeasure m (c :: rest) v := by
        simp [compMeasure]; omega
      omega

/-- `CavernGenerator._bfs_component`: BFS from a seed with the shared
visited set; the fuel is always sufficient, so the default of `getD` is
never used. -/
def bfs_component (m : Map) (sx sy : Int) (visited : List (Int × Int)) :
    List (Int × Int) × List (Int × Int) :=
  (compLoop m (bfsFuel m) [(sx, sy)] (visited ++ [(sx, sy)]) [(sx, sy)]).getD
    (visited ++ [(sx, sy)], [(sx, sy)])

/-- Invariant of `_bfs_component`'s loop: the shared visited set is the
pre-call set `v0` plus the growing component, the component holds floor
cells reachable from the seed and disjoint from `v0`, and discharged
component cells have all their floor neighbours inside the component. -/
structure CompInv (m : Map) (v0 : List (Int × Int)) (seed : Int × Int)
    (q v comp : List (Int × Int)) : Prop where
  veq : v = v0 ++ comp
  seed_mem : seed ∈ comp
  comp_floor : ∀ c ∈ comp, m.is_floor c.1 c.2 = true
  comp_reach : ∀ c ∈ comp, ∃ n, Reach m seed c n
  comp_nodup : comp.Nodup
  comp_disj : ∀ c ∈ comp, c ∉ v0
  q_sub : ∀ c ∈ q, c ∈ comp
  q_nodup : q.Nodup
  closed : ∀ c ∈ comp, c ∉ q →
    ∀ c', Adj c c' → m.is_floor c'.1 c'.2 = true → c' ∈ comp

theorem CompInv.comp_preserved {m : Map} {v0 : List (Int × Int)} {seed c : Int × Int}
    {rest v comp : List (Int × Int)}
    (hv0closed : ∀ a ∈ v0, ∀ c', Adj a c' → m.is_floor c'.1 c'.2 = true → c' ∈ v0)
    (inv : CompInv m v0 seed (c :: rest) v comp) :
    CompInv m v0 seed (compExpand m c.1 c.2 (rest, v, comp)).1
      (compExpand m c.1 c.2 (rest, v, comp)).2.1
      (compExpand m c.1 c.2 (rest, v, comp)).2.2 := by
  obtain ⟨new, h1, h2, h3, hnodup, hprops, hcomplete⟩ := compExpand_spec m c.1 c.2 rest v comp
  have hc0 : ((c.1, c.2) : Int × Int) = c := rfl
  rw [hc0] at hprops hcomplete
  have hcc : c ∈ comp := inv.q_sub _ (List.mem_cons_self _ _)
  have hnew_nv : ∀ a ∈ new, a ∉ v := fun a ha => (hprops _ ha).2.2
  have hcomp_sub_v : ∀ a ∈ comp, a ∈ v := by
    intro a ha
    rw [inv.veq]
    exact List.mem_append_right _ ha
  have hv0_sub_v : ∀ a ∈ v0, a ∈ v := by
    intro a ha
    rw [inv.veq]
    exact List.mem_append_left _ ha
  have hnew_reach : ∀ a ∈ new, ∃ n, Reach m seed a n := by
    intro a ha
    obtain ⟨hadj, hfl, _⟩ := hprops _ ha
    obtain ⟨n, hn⟩ := inv.comp_reach _ hcc
    exact ⟨n + 1, Reach.step hn hadj hfl⟩
  constructor
  case veq => rw [h2, h3, inv.veq, List.append_assoc]
  case seed_mem => rw [h3]; exact List.mem_append_left _ inv.seed_mem
  case comp_floor =>
    rw [h3]
    intro a ha
    rcases List.mem_append.1 ha with ha' | ha'
    · exact inv.comp_floor _ ha'
    · exact (hprops _ ha').2.1
  case comp_reach =>
    rw [h3]
    intro a ha
    rcases List.mem_append.1 ha with ha' | ha'
    · exact inv.comp_reach _ ha'
    · exact hnew_reach _ ha'
  case comp_nodup =>
    rw [h3]
    refine List.nodup_append.2 ⟨inv.comp_nodup, hnodup, ?_⟩
    intro a ha1 ha2
    exact hnew_nv _ ha2 (hcomp_sub_v _ ha1)
  case comp_disj =>
    rw [h3]
    intro a ha
    rcases List.mem_append.1 ha with ha' | ha'
    · exact inv.comp_disj _ ha'
    · exact fun hv0 => hnew_nv _ ha' (hv0_sub_v _ hv0)
  case q_sub =>
    rw [h1, h3]
    intro a ha
    rcases List.mem_append.1 ha with ha' | ha'
    · exact List.mem_append_left _ (inv.q_sub _ (List.mem_cons_of_mem _ ha'))
    · exact List.mem_append_right _ ha'
  case q_nodup =>
    rw [h1]
    refine List.nodup_append.2 ⟨inv.q_nodup.of_cons, hnodup, ?_⟩
    intro a ha1 ha2
    exact hnew_nv _ ha2 (hcomp_sub_v _ (inv.q_sub _ (List.mem_cons_of_mem _ ha1)))
  case closed =>
    rw [h1, h3]
    intro e he hnq c' hadj hfl
    rcases List.mem_append.1 he with hec | henew
    · by_cases heq : e ∈ (c :: rest)
      · rcases List.mem_cons.1 heq with rfl | her
        · rcases hcomplete c' hadj hfl with hv | hnew'
          · rw [inv.veq] at hv
            rcases List.mem_append.1 hv with hv0' | hcomp'
            · exfalso
              have hcfl : m.is_floor e.1 e.2 = true := inv.comp_floor _ hec
              have := hv0closed c' hv0' e hadj.symm hcfl
              exact inv.comp_disj _ hec this
            · exact List.mem_append_left _ hcomp'
          · exact List.mem_append_right _ hnew'
        · exact absurd (List.mem_append_left _ her) hnq
      · have := inv.closed _ hec heq c' hadj hfl
        exact List.mem_append_left _ this
    · exact absurd (List.mem_append_right _ henew) hnq

theorem compLoop_inv (m : Map) (v0 : List (Int × Int)) (seed : Int × Int)
    (hv0closed : ∀ a ∈ v0, ∀ c', Adj a c' → m.is_floor c'.1 c'.2 = true → c' ∈ v0) :
    ∀ (fuel : Nat) (q v comp : List (Int × Int)), CompInv m v0 seed q v comp →
      ∀ out, compLoop m fuel q v comp = some out →
        CompInv m v0 seed [] out.1 out.2 := by
  intro fuel
  induction fuel with
  | zero =>
    intro q v comp inv out hout
    match q, hout with
    | [], hout =>
      have : (v, comp) = out := by simpa [compLoop] using hout
      rw [← this]
      exact inv
    | e :: rest, hout => exact absurd hout (by simp [compLoop])
  | succ fuel ih =>
    intro q v comp inv out hout
    match q, hout with
    | [], hout =>
      have : (v, comp) = out := by simpa [compLoop] using hout
      rw [← this]
      exact inv
    | c :: rest, hout =>
      rw [compLoop] at hout
      exact ih _ _ _ (inv.comp_preserved hv0closed) out hout

/-- Full characterization of `_bfs_component`: the returned component is
exactly the floor-reachability class of its seed, appended to the shared
visited set. -/
theorem bfs_component_spec (m : Map) (seed : Int × Int) (v0 : List (Int × Int))
    (hseed_fl : m.is_floor seed.1 seed.2 = true) (hseed_nv : seed ∉ v0)
    (hv0closed : ∀ a ∈ v0, ∀ c', Adj a c' → m.is_floor c'.1 c'.2 = true → c' ∈ v0) :
    ∃ comp, bfs_component m seed.1 seed.2 v0 = (v0 ++ comp, comp) ∧
      seed ∈ comp ∧ (∀ c ∈ comp, m.is_floor c.1 c.2 = true) ∧
      (∀ c ∈ comp, ∃ n, Reach m seed c n) ∧
      comp.Nodup ∧ (∀ c ∈ comp, c ∉ v0) ∧
      (∀ c ∈ comp, ∀ c', Adj c c' → m.is_floor c'.1 c'.2 = true → c' ∈ comp) ∧
      (∀ c n, Reach m seed c n → c ∈ comp) := by
  have hinit : CompInv m v0 seed [seed] (v0 ++ [seed]) [seed] := by
    constructor
    case veq => rfl
    case seed_mem => exact List.mem_singleton.2 rfl
    case comp_floor =>
      intro a ha
      rw [List.mem_singleton.1 ha]
      exact hseed_fl
    case comp_reach =>
      intro a ha
      rw [List.mem_singleton.1 ha]
      exact ⟨0, Reach.refl _⟩
    case comp_nodup => simp
    case comp_disj =>
      intro a ha
      rw [List.mem_singleton.1 ha]
      exact hseed_nv
    case q_sub => intro a ha; exact ha
    case q_nodup => simp
    case closed =>
      intro a ha hnq
      exact absurd ha hnq
  have hmeas : compMeasure m [seed] (v0 ++ [seed]) ≤ bfsFuel m := by
    simp only [compMeasure, List.length_singleton, bfsFuel]
    have h1 : ((inBoundsFinset m) \ (v0 ++ [seed]).toFinset).card ≤
        (inBoundsFinset m).card := Finset.card_le_card Finset.sdiff_subset
    have h2 := inBoundsFinset_card_le m
    omega
  obtain ⟨out, hout⟩ := Option.isSome_iff_exists.1 (compLoop_isSome m (bfsFuel m) _ _ _ hmeas)
  have fin := compLoop_inv m v0 seed hv0closed (bfsFuel m) _ _ _ hinit out hout
  have hval : bfs_component m seed.1 seed.2 v0 = out := by
    unfold bfs_component
    have he : ((seed.1, seed.2) : Int × Int) = seed := rfl
    rw [he, hout]
    rfl
  refine ⟨out.2, ?_, fin.seed_mem, fin.comp_floor, fin.comp_reach, fin.comp_nodup,
    fin.comp_disj, ?_, ?_⟩
  · rw [hval, ← fin.veq]
  · intro c hc c' hadj hfl
    exact fin.closed _ hc (List.not_mem_nil c) c' hadj hfl
  · intro c n hn
    induction hn with
    | refl => exact fin.seed_mem
    | step h hadj hfl ih =>
      exact fin.closed _ ih (List.not_mem_nil _) _ hadj hfl

/-- The per-cell action of the component scan of `_ensure_connectivity`:
start a BFS at every unvisited floor cell, collecting the component. -/
def scanStep (m : Map) (st : List (Int × Int) × List (List (Int × Int)))
    (p : Int × Int) : List (Int × Int) × List (List (Int × Int)) :=
  if m.is_floor p.1 p.2 = true ∧ p ∉ st.1 then
    ((bfs_component m p.1 p.2 st.1).1, st.2 ++ [(bfs_component m p.1 p.2 st.1).2])
  else st

/-- Invariant of the component scan: the shared visited set is exactly the
cells of the components found so far, and every component is the
floor-reachability class of one of its members. -/
structure ScanInv (m : Map) (visited : List (Int × Int))
    (comps : List (List (Int × Int))) : Prop where
  veq : visited = comps.flatten
  good : ∀ comp ∈ comps, ∃ seed : Int × Int, seed ∈ comp ∧
    (∀ c ∈ comp, m.is_floor c.1 c.2 = true) ∧
    (∀ c ∈ comp, ∃ n, Reach m seed c n) ∧
    (∀ c n, Reach m seed c n → c ∈ comp) ∧
    (∀ c ∈ comp, ∀ c', Adj c c' → m.is_floor c'.1 c'.2 = true → c' ∈ comp)

theorem ScanInv.vclosed {m : Map} {visited : List (Int × Int)}
    {comps : List (List (Int × Int))} (inv : ScanInv m visited comps) :
    ∀ a ∈ visited, ∀ c', Adj a c' → m.is_floor c'.1 c'.2 = true → c' ∈ visited := by
  intro a ha c' hadj hfl
  rw [inv.veq] at ha ⊢
  obtain ⟨comp, hcomp, hacomp⟩ := List.mem_flatten.1 ha
  obtain ⟨seed, _, _, _, _, hclosed⟩ := inv.good _ hcomp
  exact List.mem_flatten.2 ⟨comp, hcomp, hclosed _ hacomp _ hadj hfl⟩

theorem scan_foldl_spec (m : Map) :
    ∀ (ps : List (Int × Int)) (st : List (Int × Int) × List (List (Int × Int))),
      ScanInv m st.1 st.2 →
      ScanInv m (ps.foldl (scanStep m) st).1 (ps.foldl (scanStep m) st).2 ∧
      (∀ p ∈ ps, m.is_floor p.1 p.2 = true → p ∈ (ps.foldl (scanStep m) st).1) ∧
      (∀ a ∈ st.1, a ∈ (ps.foldl (scanStep m) st).1) := by
  intro ps
  induction ps with
  | nil =>
    intro st inv
    exact ⟨inv, by simp, fun a ha => ha⟩
  | cons p ps ih =>
    intro st inv
    by_cases hc : m.is_floor p.1 p.2 = true ∧ p ∉ st.1
    · obtain ⟨comp, hval, hseed, hfloors, hreach, hnodup, hdisj, hclosed, hcomplete⟩ :=
        bfs_component_spec m p st.1 hc.1 hc.2 inv.vclosed
      have hstep : scanStep m st p = (st.1 ++ comp, st.2 ++ [comp]) := by
        unfold scanStep
        rw [if_pos hc, hval]
      have hinv' : ScanInv m (st.1 ++ comp) (st.2 ++ [comp]) := by
        constructor
        case veq =>
          rw [inv.veq, List.flatten_append]
          simp
        case good =>
          intro c hcmem
          rcases List.mem_append.1 hcmem with h | h
          · exact inv.good _ h
          · rw [List.mem_singleton.1 h]
            exact ⟨p, hseed, hfloors, hreach, hcomplete, hclosed⟩
      obtain ⟨hfin, hcov, hmono⟩ := ih (st.1 ++ comp, st.2 ++ [comp]) hinv'
      simp only [List.foldl_cons, hstep]
      refine ⟨hfin, ?_, ?_⟩
      · intro q hq hqfl
        rcases List.mem_cons.1 hq with rfl | hq'
        · exact hmono _ (List.mem_append_right _ hseed)
        · exact hcov _ hq' hqfl
      · intro a ha
        exact hmono _ (List.mem_append_left _ ha)
    · have hstep : scanStep m st p = st := by
        unfold scanStep
        rw [if_neg hc]
      obtain ⟨hfin, hcov, hmono⟩ := ih st inv
      simp only [List.foldl_cons, hstep]
      refine ⟨hfin, ?_, hmono⟩
      intro q hq hqfl
      rcases List.mem_cons.1 hq with rfl | hq'
      · refine hmono _ ?_
        by_contra hnv
        exact hc ⟨hqfl, hnv⟩
      · exact hcov _ hq' hqfl

/-- The wall-conversion write of `_ensure_connectivity`: floor tiles outside
the largest component become wall (the scan reads the mutating map, but each
cell depends only on itself, so per-cell semantics are unaffected). -/
def rewallStep (largest : List (Int × Int)) (acc : Map) (p : Int × Int) : Map :=
  if acc.is_floor p.1 p.2 = true ∧ p ∉ largest then acc.set_cell p.1 p.2 '#' else acc

/-- `CavernGenerator._ensure_connectivity`. -/
def ensure_connectivity (m : Map) : Map :=
  match ((allCellsList m.width m.height).foldl (scanStep m) ([], [])).2 with
  | [] => m.set_cell ((m.width / 2 : Nat) : Int) ((m.height / 2 : Nat) : Int) '.'
  | c :: cs =>
    (allCellsList m.width m.height).foldl
      (rewallStep ((maxByLen (c :: cs)).getD [])) m

theorem rewall_foldl_spec (m : Map) (largest : List (Int × Int)) :
    ∀ (ps : List (Int × Int)) (acc : Map), acc.WF →
      acc.width = m.width → acc.height = m.height → ps.Nodup →
      (∀ p ∈ ps, m.inRange p.1 p.2) →
      (∀ p ∈ ps, acc.get_cell p.1 p.2 = m.get_cell p.1 p.2) →
      (ps.foldl (rewallStep largest) acc).WF ∧
      (ps.foldl (rewallStep largest) acc).width = m.width ∧
      (ps.foldl (rewallStep largest) acc).height = m.height ∧
      ∀ x y : Int, (ps.foldl (rewallStep largest) acc).get_cell x y =
        if (x, y) ∈ ps ∧ m.is_floor x y = true ∧ (x, y) ∉ largest then '#'
        else acc.get_cell x y := by
  intro ps
  induction ps with
  | nil =>
    intro acc hwf hw hh _ _ _
    exact ⟨hwf, hw, hh, fun x y => by simp⟩
  | cons p ps ih =>
    intro acc hwf hw hh hnodup hin hagree
    have hpin : m.inRange p.1 p.2 := hin _ (List.mem_cons_self _ _)
    have hpin' : acc.inRange p.1 p.2 := by
      unfold Map.inRange at hpin ⊢
      rw [hw, hh]
      exact hpin
    have hpagree : acc.get_cell p.1 p.2 = m.get_cell p.1 p.2 :=
      hagree _ (List.mem_cons_self _ _)
    have hfl_eq : acc.is_floor p.1 p.2 = m.is_floor p.1 p.2 := by
      unfold Map.is_floor
      rw [hpagree]
    have hwf' : (rewallStep largest acc p).WF := by
      unfold rewallStep
      split
      · exact hwf.set_cell _ _ _
      · exact hwf
    have hw' : (rewallStep largest acc p).width = m.width := by
      unfold rewallStep
      split
      · rw [Map.width_set_cell]; exact hw
      · exact hw
    have hh' : (rewallStep largest acc p).height = m.height := by
      unfold rewallStep
      split
      · rw [Map.height_set_cell]; exact hh
      · exact hh
    have hget' : ∀ x y : Int, (rewallStep largest acc p).get_cell x y =
        if (x = p.1 ∧ y = p.2) ∧ m.is_floor x y = true ∧ (x, y) ∉ largest then '#'
        else acc.get_cell x y := by
      intro x y
      unfold rewallStep
      by_cases hc : acc.is_floor p.1 p.2 = true ∧ p ∉ largest
      · rw [if_pos hc, Map.get_set_cell hwf]
        by_cases h3 : x = p.1 ∧ y = p.2
        · have hpe : ((x, y) : Int × Int) = p := Prod.ext h3.1 h3.2
          have hfl2 : m.is_floor x y = true := by
            rw [h3.1, h3.2, ← hfl_eq]
            exact hc.1
          have hnl2 : ((x, y) : Int × Int) ∉ largest := by
            rw [hpe]
            exact hc.2
          rw [if_pos ⟨h3.1, h3.2, hpin'⟩, if_pos ⟨h3, hfl2, hnl2⟩]
        · rw [if_neg (fun h => h3 ⟨h.1, h.2.1⟩), if_neg (fun h => h3 h.1)]
      · rw [if_neg hc]
        by_cases h3 : x = p.1 ∧ y = p.2
        · rw [if_neg ?_]
          rintro ⟨_, hfl, hnl⟩
          have hpe : ((x, y) : Int × Int) = p := Prod.ext h3.1 h3.2
          refine hc ⟨?_, ?_⟩
          · rw [hfl_eq, ← h3.1, ← h3.2]
            exact hfl
          · rw [← hpe]
            exact hnl
        · rw [if_neg (fun h => h3 h.1)]
    have hpnotin : p ∉ ps := (List.nodup_cons.1 hnodup).1
    have hagree' : ∀ q ∈ ps, (rewallStep largest acc p).get_cell q.1 q.2 =
        m.get_cell q.1 q.2 := by
      intro q hq
      rw [hget']
      rw [if_neg ?_]
      · exact hagree _ (List.mem_cons_of_mem _ hq)
      · rintro ⟨hq12, _, _⟩
        have : q = p := Prod.ext hq12.1 hq12.2
        exact hpnotin (this ▸ hq)
    obtain ⟨rwf, rw', rh', rget⟩ := ih (rewallStep largest acc p) hwf' hw' hh'
      (List.nodup_cons.1 hnodup).2
      (fun q hq => hin _ (List.mem_cons_of_mem _ hq)) hagree'
    simp only [List.foldl_cons]
    refine ⟨rwf, rw', rh', ?_⟩
    intro x y
    rw [rget x y, hget' x y]
    by_cases h2 : m.is_floor x y = true ∧ (x, y) ∉ largest
    · by_cases h1 : (x, y) ∈ ps
      · rw [if_pos ⟨h1, h2.1, h2.2⟩, if_pos ⟨List.mem_cons_of_mem _ h1, h2.1, h2.2⟩]
      · rw [if_neg (fun h => h1 h.1)]
        by_cases h0 : x = p.1 ∧ y = p.2
        · have hpe : ((x, y) : Int × Int) = p := Prod.ext h0.1 h0.2
          rw [if_pos ⟨h0, h2.1, h2.2⟩, if_pos ⟨hpe ▸ List.mem_cons_self p ps, h2.1, h2.2⟩]
        · rw [if_neg (fun h => h0 h.1), if_neg ?_]
          rintro ⟨hmem, _, _⟩
          rcases List.mem_cons.1 hmem with h | h
          · exact h0 ⟨congrArg Prod.fst h, congrArg Prod.snd h⟩
          · exact h1 h
    · rw [if_neg (fun h => h2 ⟨h.2.1, h.2.2⟩), if_neg (fun h => h2 ⟨h.2.1, h.2.2⟩),
        if_neg (fun h => h2 ⟨h.2.1, h.2.2⟩)]

/-- Path transfer: a walk survives into a modified map that keeps every
reachable floor cell floor. -/
theorem reach_transfer {m m' : Map} {s : Int × Int}
    (hkeep : ∀ c k, Reach m s c k → m.is_floor c.1 c.2 = true →
      m'.is_floor c.1 c.2 = true) :
    ∀ {c : Int × Int} {n : Nat}, Reach m s c n → Reach m' s c n := by
  intro c n h
  induction h with
  | refl => exact Reach.refl _
  | step h hadj hfl ih => exact Reach.step ih hadj (hkeep _ _ (Reach.step h hadj hfl) hfl)

theorem Map.is_floor_in_allCells {m : Map} {x y : Int}
    (h : m.is_floor x y = true) : (x, y) ∈ allCellsList m.width m.height := by
  have hb := Map.is_floor_in_bounds h
  simp only [Map.in_bounds, decide_eq_true_eq] at hb
  exact (mem_allCellsList m.width m.height x y).2 ⟨hb.1, hb.2.1, hb.2.2.1, hb.2.2.2⟩

/-- After `_ensure_connectivity`, the floor cells form a single non-empty
component (for positive dimensions). -/
theorem ensure_connectivity_one_component (m : Map) (hwf : m.WF)
    (hw : 1 ≤ m.width) (hh : 1 ≤ m.height) :
    OneFloorComponent (ensure_connectivity m) := by
  have hinv0 : ScanInv m ([] : List (Int × Int)) ([] : List (List (Int × Int))) := by
    constructor
    case veq => rfl
    case good => intro comp hcomp; exact absurd hcomp (List.not_mem_nil _)
  obtain ⟨hscan, hcov, _⟩ := scan_foldl_spec m (allCellsList m.width m.height) ([], []) hinv0
  unfold ensure_connectivity
  split
  · rename_i heq
    -- no components: the map had no floor at all; a single centre cell is carved
    have hnofloor : ∀ x y : Int, ¬ m.is_floor x y = true := by
      intro x y hf
      have hmem := hcov (x, y) (Map.is_floor_in_allCells hf) hf
      rw [hscan.veq, heq] at hmem
      exact absurd hmem (List.not_mem_nil _)
    have hc_in : m.inRange ((m.width / 2 : Nat) : Int) ((m.height / 2 : Nat) : Int) := by
      unfold Map.inRange
      have h1 : m.width / 2 < m.width := Nat.div_lt_self (by omega) (by omega)
      have h2 : m.height / 2 < m.height := Nat.div_lt_self (by omega) (by omega)
      omega
    have hfl : ∀ x y : Int,
        (m.set_cell ((m.width / 2 : Nat) : Int) ((m.height / 2 : Nat) : Int) '.').is_floor
          x y = true ↔
        (x = ((m.width / 2 : Nat) : Int) ∧ y = ((m.height / 2 : Nat) : Int)) := by
      intro x y
      rw [is_floor_set_dot hwf]
      constructor
      · rintro (⟨hx, hy, _⟩ | hf)
        · exact ⟨hx, hy⟩
        · exact absurd hf (hnofloor x y)
      · rintro ⟨hx, hy⟩
        exact Or.inl ⟨hx, hy, hc_in⟩
    refine ⟨⟨(((m.width / 2 : Nat) : Int), ((m.height / 2 : Nat) : Int)), ?_⟩, ?_⟩
    · exact (hfl _ _).2 ⟨rfl, rfl⟩
    · intro c c' hc hc'
      obtain ⟨hx, hy⟩ := (hfl c.1 c.2).1 hc
      obtain ⟨hx', hy'⟩ := (hfl c'.1 c'.2).1 hc'
      have : c = c' := Prod.ext (hx.trans hx'.symm) (hy.trans hy'.symm)
      rw [this]
      exact ⟨0, Reach.refl _⟩
  · rename_i c cs heq
    -- components found: the largest is kept, everything else walled off
    have hLsome : maxByLen (c :: cs) = some
        ((cs.foldl (fun best f => if best.length < f.length then f else best) c)) := rfl
    set L := (cs.foldl (fun best f => if best.length < f.length then f else best) c)
      with hLdef
    have hgetD : (maxByLen (c :: cs)).getD [] = L := by rw [hLsome]; rfl
    obtain ⟨hLmem, _⟩ := maxByLen_spec (c :: cs) L hLsome
    have hLmem' : L ∈ ((allCellsList m.width m.height).foldl (scanStep m) ([], [])).2 := by
      rw [heq]
      exact hLmem
    obtain ⟨sL, hsL_mem, hLfloors, hLreach, hLcomplete, hLclosed⟩ := hscan.good _ hLmem'
    rw [hgetD]
    obtain ⟨rwf, rw', rh', rget⟩ := rewall_foldl_spec m L
      (allCellsList m.width m.height) m hwf rfl rfl (allCellsList_nodup _ _)
      (by
        intro p hp
        have := (mem_allCellsList m.width m.height p.1 p.2).1 (by
          have he : ((p.1, p.2) : Int × Int) = p := rfl
          rw [he]; exact hp)
        unfold Map.inRange
        omega)
      (fun p _ => rfl)
    have hflchar : ∀ p : Int × Int,
        ((allCellsList m.width m.height).foldl
          (rewallStep L) m).is_floor p.1 p.2 = true ↔
        (m.is_floor p.1 p.2 = true ∧ p ∈ L) := by
      intro p
      unfold Map.is_floor
      rw [rget p.1 p.2]
      constructor
      · intro hf
        by_cases hcnd : ((p.1, p.2) : Int × Int) ∈ allCellsList m.width m.height ∧
            m.is_floor p.1 p.2 = true ∧ ((p.1, p.2) : Int × Int) ∉ L
        · rw [if_pos hcnd] at hf
          exact absurd hf (by decide)
        · rw [if_neg hcnd] at hf
          have hmfl : m.is_floor p.1 p.2 = true := by
            unfold Map.is_floor
            exact hf
          refine ⟨hmfl, ?_⟩
          by_contra hnl
          refine hcnd ⟨?_, hmfl, ?_⟩
          · exact Map.is_floor_in_allCells hmfl
          · have he : ((p.1, p.2) : Int × Int) = p := rfl
            rw [he]
            exact hnl
      · rintro ⟨hmfl, hpL⟩
        rw [if_neg ?_]
        · exact hmfl
        · rintro ⟨_, _, hnl⟩
          have he : ((p.1, p.2) : Int × Int) = p := rfl
          rw [he] at hnl
          exact hnl hpL
    have hkeep : ∀ a k, Reach m sL a k → m.is_floor a.1 a.2 = true →
        ((allCellsList m.width m.height).foldl
          (rewallStep L) m).is_floor a.1 a.2 = true := by
      intro a k hr hfl
      exact (hflchar a).2 ⟨hfl, hLcomplete a k hr⟩
    have hsL_floor_m : m.is_floor sL.1 sL.2 = true := hLfloors _ hsL_mem
    have hsL_floor : ((allCellsList m.width m.height).foldl
        (rewallStep L) m).is_floor sL.1 sL.2 = true :=
      (hflchar sL).2 ⟨hsL_floor_m, hsL_mem⟩
    refine ⟨⟨sL, hsL_floor⟩, ?_⟩
    intro a a' ha ha'
    obtain ⟨hafl, haL⟩ := (hflchar a).1 ha
    obtain ⟨hafl', haL'⟩ := (hflchar a').1 ha'
    obtain ⟨n, hn⟩ := hLreach _ haL
    obtain ⟨n', hn'⟩ := hLreach _ haL'
    have hn2 := reach_transfer hkeep hn
    have hn2' := reach_transfer hkeep hn'
    have h1 := hn2.reverse hsL_floor
    exact ⟨n + n', h1.trans hn2'⟩

/-- `CavernGenerator.generate`: seed, smooth `smoothing_iterations` times,
repair connectivity. -/
def cavern_generate (width height : Nat) (wall_probability : Rat)
    (smoothing_iterations : Nat) (rand : Nat → Rat) : Map :=
  ensure_connectivity
    ((List.range smoothing_iterations).foldl (fun acc _ => acc.smooth)
      (random_seed wall_probability rand (Map.init width height)))

theorem cavern_one_component_aux (width height : Nat) (wall_probability : Rat)
    (smoothing_iterations : Nat) (rand : Nat → Rat)
    (hw : 1 ≤ width) (hh : 1 ≤ height) :
    OneFloorComponent
      (cavern_generate width height wall_probability smoothing_iterations rand) := by
  obtain ⟨hwf1, hw1, hh1⟩ :=
    random_seed_preserves wall_probability rand (Map.init width height) (Map.WF.init _ _)
  have hsm : ∀ (l : List Nat) (acc : Map), acc.WF → acc.width = width →
      acc.height = height →
      (l.foldl (fun acc _ => acc.smooth) acc).WF ∧
      (l.foldl (fun acc _ => acc.smooth) acc).width = width ∧
      (l.foldl (fun acc _ => acc.smooth) acc).height = height := by
    intro l
    induction l with
    | nil => intro acc h1 h2 h3; exact ⟨h1, h2, h3⟩
    | cons a l ih =>
      intro acc h1 h2 h3
      simp only [List.foldl_cons]
      obtain ⟨g1, g2, g3⟩ := smooth_preserves acc h1
      exact ih _ g1 (g2.trans h2) (g3.trans h3)
  have hw0 : (Map.init width height).width = width := rfl
  have hh0 : (Map.init width height).height = height := rfl
  obtain ⟨f1, f2, f3⟩ := hsm (List.range smoothing_iterations)
    (random_seed wall_probability rand (Map.init width height)) hwf1
    (hw1.trans hw0) (hh1.trans hh0)
  unfold cavern_generate
  exact ensure_connectivity_one_component _ f1 (by omega) (by omega)

/-- Counterexample to **C2** as stated: `CavernGenerator(0, 0).generate()`
returns a map with no cells at all — the centre fallback write is out of
bounds and is dropped — so its floor cells do not form one (non-empty)
component. -/
theorem cavern_zero_size_no_component :
    ¬ OneFloorComponent (cavern_generate 0 0 (9/20) 4 (fun _ => 0)) := by
  rintro ⟨⟨c, hc⟩, -⟩
  have hh0 : (cavern_generate 0 0 (9/20) 4 (fun _ => 0)).height = 0 := by decide
  have hwall : (cavern_generate 0 0 (9/20) 4 (fun _ => 0)).get_cell c.1 c.2 = '#' := by
    unfold Map.get_cell
    rw [if_neg]
    rintro ⟨h1, h2, _, _⟩
    rw [hh0] at h2
    omega
  simp [Map.is_floor, hwall] at hc

/-- **C2 (amended).** The floor cells of every dungeon generated from
dimensions at least 2, and of every cavern generated from dimensions at
least 1, form exactly one non-empty connected component under
4-directional adjacency.  (The cavern half is false for zero-sized inputs,
where `generate` returns a map with no floor at all.) -/
theorem generated_maps_one_component :
    (∀ (width height sx sy : Nat) (choice : Nat → Nat) (m : Map),
      2 ≤ width → 2 ≤ height →
      dungeon_generate width height sx sy choice = some m → OneFloorComponent m) ∧
    (∀ (width height : Nat) (wall_probability : Rat) (smoothing_iterations : Nat)
      (rand : Nat → Rat), 1 ≤ width → 1 ≤ height →
      OneFloorComponent
        (cavern_generate width height wall_probability smoothing_iterations rand)) :=
  ⟨fun w h sx sy choice m hw hh hm => dungeon_one_component_aux w h sx sy choice hw hh m hm,
   fun w h p k r hw hh => cavern_one_component_aux w h p k r hw hh⟩

/-- Witness for the amended C2 on concrete generator runs. -/
theorem generated_maps_one_component_witness :
    OneFloorComponent ((dungeon_generate 4 5 3 7 (fun i => i + 1)).getD (Map.init 0 0)) ∧
    OneFloorComponent (cavern_generate 3 3 (9/20) 1 (fun _ => 0)) :=
  ⟨generated_maps_one_component.1 4 5 3 7 (fun i => i + 1)
      ((dungeon_generate 4 5 3 7 (fun i => i + 1)).getD (Map.init 0 0))
      (by norm_num) (by norm_num) (by decide),
   generated_maps_one_component.2 3 3 (9/20) 1 (fun _ => 0) (by norm_num) (by norm_num)⟩

end DfsBfs
